import Mathlib

/-!
Verification of the time-indexed feature derivation engine and the gap
handling routine of the Helsinki city-bike analysis pipeline.

The embedding models pandas DataFrames per entity (station) as association
lists from integer timestamps to optional rational values: a timestamp is
measured in whole periods (hours, since every call site passes an hourly
frequency), a `none` value is a NaN cell, and numeric cells are rationals.
Each pandas operation used by the source (`shift` with a frequency,
index-aligned column assignment, positional `rolling`, row-wise
`mean`/`std` with NaN skipping, `interpolate(method=linear)`,
`groupby(...).apply`, `reindex`, `merge`, `dropna`, year-based filtering)
is translated below next to the source lines it comes from.
-/

namespace Citybike

/-- A single-entity pandas Series: (timestamp, cell) pairs, where a cell is
`none` for NaN.  The DataFrame index is the list of first components. -/
abbrev Series : Type := List (ℤ × Option ℚ)

/-- Index-aligned lookup: the value a pandas Series contributes at label `t`
when it is aligned to an index containing `t` (NaN when the label is
absent).  For series with duplicate-free indices this is the unique cell
at `t`. -/
def sget (s : Series) (t : ℤ) : Option ℚ :=
  match s.find? (fun p => p.1 == t) with
  | some p => p.2
  | none => none

/-- Embedding of `Series.shift(k, freq=freq)` in units of one period of
length `k` time units: the index moves forward by `k`, the data does not
move (pandas shifts the index when `freq` is given). -/
def shiftF (k : ℤ) (s : Series) : Series :=
  s.map (fun p => (p.1 + k, p.2))

/-- Embedding of assigning a series as a new column of a DataFrame with
index `idx`: pandas aligns on labels, filling NaN where the label is
missing from the assigned series and dropping labels not in `idx`. -/
def reindexTo (idx : List ℤ) (s : Series) : Series :=
  idx.map (fun t => (t, sget s t))

/-- Embedding of `group.sort_index()` (stable sort by timestamp). -/
def sortIndex (s : Series) : Series :=
  List.insertionSort (fun a b => a.1 ≤ b.1) s

/-- Arithmetic mean of a list of rationals (pandas mean of the non-NaN
values of a full window). -/
def meanQ (xs : List ℚ) : ℚ :=
  xs.sum / xs.length

/-- Sample variance (ddof = 1), undefined on fewer than two values exactly
as pandas `std` is NaN there.  The source's `std` columns carry the square
root of this quantity; we carry the variance itself since only the
definedness and the data dependence of the std columns enter the
properties below, and the square root preserves both. -/
def varQ (xs : List ℚ) : Option ℚ :=
  if 2 ≤ xs.length then
    some (((xs.map (fun x => (x - meanQ xs) ^ 2)).sum) / (xs.length - 1))
  else
    none

/-- The positional window of pandas `rolling(window=w)` ending at position
`i`: the last `w` entries among the first `i + 1`. -/
def rollWindow (vs : List (Option ℚ)) (w i : ℕ) : List (Option ℚ) :=
  (vs.take (i + 1)).drop (i + 1 - w)

/-- Embedding of `rolling(window=w).agg` with the default
`min_periods = w`: at each position the statistic is applied to the
non-NaN entries of the positional window when at least `w` of them are
present, and is NaN otherwise. -/
def rollApply (f : List ℚ → Option ℚ) (w : ℕ) (vs : List (Option ℚ)) :
    List (Option ℚ) :=
  (List.range vs.length).map (fun i =>
    let obs := (rollWindow vs w i).filterMap id
    if w ≤ obs.length then f obs else none)

/-- Pair a value list computed positionally from a series back with that
series' index (the result of a rolling computation keeps the index). -/
def withIndex (s : Series) (vs : List (Option ℚ)) : Series :=
  (s.map (fun p => p.1)).zip vs

/-- Embedding of `_add_lags` for a single lag `k` (features.py lines
14-17): `group[column].shift(lag, freq=freq)` assigned to a new column of
the sorted group, so the new column aligns the shifted series back onto
the group's own index. -/
def lag_col (g : Series) (k : ℕ) (freq : ℤ) : Series :=
  let gs := sortIndex g
  reindexTo (gs.map (fun p => p.1)) (shiftF (k * freq) gs)

/-- Embedding of the rolling-mean column of `_add_rolling_means`
(features.py line 34):
`group[column].shift(1, freq=freq).rolling(window=window).mean()`
assigned to a column of the sorted group. -/
def roll_mean_col (g : Series) (w : ℕ) (freq : ℤ) : Series :=
  let gs := sortIndex g
  let sh := shiftF freq gs
  reindexTo (gs.map (fun p => p.1))
    (withIndex sh (rollApply (fun xs => some (meanQ xs)) w (sh.map (fun p => p.2))))

/-- Embedding of the rolling-std column of `_add_rolling_means`
(features.py line 35), carrying the sample variance (see `varQ`). -/
def roll_std_col (g : Series) (w : ℕ) (freq : ℤ) : Series :=
  let gs := sortIndex g
  let sh := shiftF freq gs
  reindexTo (gs.map (fun p => p.1))
    (withIndex sh (rollApply varQ w (sh.map (fun p => p.2))))

/-- Row-wise mean over a list of cells, with pandas NaN skipping
(`DataFrame.mean(axis=1)`): NaN only when every cell is NaN. -/
def rowMean (os : List (Option ℚ)) : Option ℚ :=
  let xs := os.filterMap id
  if xs.length = 0 then none else some (meanQ xs)

/-- Row-wise sample variance over a list of cells with NaN skipping
(`DataFrame.std(axis=1)`, ddof = 1, squared — see `varQ`): NaN when fewer
than two cells are present. -/
def rowVar (os : List (Option ℚ)) : Option ℚ :=
  varQ (os.filterMap id)

/-- Embedding of the same-hour mean column of `_same_hour_rolling_mean`
(features.py lines 51-62): auxiliary column `i` is
`group[column].shift(i*24, freq=freq)` aligned onto the group's index, so
its cell at `t` is the target at `t - i*24` periods; the feature for
day-window `d` is the NaN-skipping row mean of the first `d` auxiliary
columns. -/
def same_hour_mean_col (g : Series) (d : ℕ) (freq : ℤ) : Series :=
  let gs := sortIndex g
  gs.map (fun p =>
    (p.1, rowMean ((List.range d).map (fun i =>
      sget (shiftF ((i + 1 : ℕ) * 24 * freq) gs) p.1))))

/-- Embedding of the same-hour std column of `_same_hour_rolling_mean`
(features.py line 63), carrying the sample variance (see `varQ`). -/
def same_hour_std_col (g : Series) (d : ℕ) (freq : ℤ) : Series :=
  let gs := sortIndex g
  gs.map (fun p =>
    (p.1, rowVar ((List.range d).map (fun i =>
      sget (shiftF ((i + 1 : ℕ) * 24 * freq) gs) p.1))))

/-- Embedding of `_shift_weather_cols` for one column (features.py lines
78-81): `group[col].shift(1, freq=freq)` aligned back onto the group's
index. -/
def shift_weather_col (g : Series) (freq : ℤ) : Series :=
  let gs := sortIndex g
  reindexTo (gs.map (fun p => p.1)) (shiftF freq gs)

/-- Replacing the target cell observed at one single timestamp `t` of an
entity's series (the input tables of the hyperproperty in C1 differ only
in the value of `target(e, t)`). -/
def updateAtTime (g : Series) (t : ℤ) (v : Option ℚ) : Series :=
  g.map (fun p => if p.1 = t then (p.1, v) else p)

/-- The nearest non-NaN entry strictly before position `i` of a series
slice, with its position (the left interpolation anchor of
`Series.interpolate`). -/
def prevValid (ys : List (Option ℚ)) (i : ℕ) : Option (ℕ × ℚ) :=
  (((List.range i).map (fun j => (j, ys.getD j none))).filterMap
    (fun p => p.2.map (fun v => (p.1, v)))).getLast?

/-- The nearest non-NaN entry strictly after position `i` of a series
slice, with its position (the right interpolation anchor). -/
def nextValid (ys : List (Option ℚ)) (i : ℕ) : Option (ℕ × ℚ) :=
  (((List.range (ys.length - (i + 1))).map
      (fun d => (i + 1 + d, ys.getD (i + 1 + d) none))).filterMap
    (fun p => p.2.map (fun v => (p.1, v)))).head?

/-- Embedding of `Series.interpolate(method=linear)` with pandas default
settings on a slice: values are treated as equally spaced; a NaN with
anchors on both sides gets the value of the straight line between them; a
NaN after the last valid value is filled with that value (numpy `interp`
clamps beyond the last anchor and the default forward limit direction
keeps the fill); a NaN before the first valid value stays NaN. -/
def interpSlice (ys : List (Option ℚ)) : List (Option ℚ) :=
  (List.range ys.length).map (fun i =>
    match ys.getD i none with
    | some v => some v
    | none =>
      match prevValid ys i, nextValid ys i with
      | some pa, some nb =>
          some (pa.2 + (nb.2 - pa.2) * (((i : ℚ) - (pa.1 : ℚ)) / ((nb.1 : ℚ) - (pa.1 : ℚ))))
      | some pa, none => some pa.2
      | none, _ => none)

/-- Embedding of `groups = (~is_na).cumsum()` (data_cleaning.py line 38):
the group id of position `i` is the number of observed entries among the
first `i + 1`, so each group is one observed value followed by the run of
missing values after it (group 0, when present, is the leading run of
missing values). -/
def groupId (xs : List (Option ℚ)) (i : ℕ) : ℕ :=
  (xs.take (i + 1)).countP (fun v => v.isSome)

/-- The positions belonging to a gap-handler group, in increasing order. -/
def groupPos (xs : List (Option ℚ)) (g : ℕ) : List ℕ :=
  (List.range xs.length).filter (fun i => groupId xs i == g)

/-- Embedding of `gap_lengths = is_na.groupby(groups).sum()`
(data_cleaning.py line 39): the number of missing entries of a group. -/
def gapLen (xs : List (Option ℚ)) (g : ℕ) : ℕ :=
  ((groupPos xs g).filter (fun i => (xs.getD i none).isNone)).length

/-- Embedding of the interpolation loop of `handle_wind_speed_gaps`
(data_cleaning.py lines 42-45): every group whose gap length lies in
[1, 6] has its slice interpolated in place.  The source iterates group by
group, but each iteration rewrites exactly the positions of its own group
from the (therefore still original) values at those same positions, so
the loop is this position-wise map; `groups` and `gap_lengths` are
computed up front from the original series exactly as in the source. -/
def interpolateShortGaps (xs : List (Option ℚ)) : List (Option ℚ) :=
  (List.range xs.length).map (fun i =>
    let g := groupId xs i
    if 1 ≤ gapLen xs g ∧ gapLen xs g ≤ 6 then
      (interpSlice ((groupPos xs g).map (fun j => xs.getD j none))).getD
        ((groupPos xs g).indexOf i) none
    else xs.getD i none)

/-- Embedding of `handle_wind_speed_gaps` (data_cleaning.py lines 36-51):
after the short-gap interpolation loop, the `ws_missing` flag column is
the missingness indicator of the interpolated series, and remaining
missing values are replaced by the sentinel -1.  Returns the pair
(wind_speed column, ws_missing column). -/
def handle_wind_speed_gaps (xs : List (Option ℚ)) : List ℚ × List ℕ :=
  let ys := interpolateShortGaps xs
  (ys.map (fun v => v.getD (-1)), ys.map (fun v => if v.isSome then 0 else 1))

/-- Calendar decomposition of an hour-resolution timestamp, as provided
by the datetime library through the `.hour`, `.weekday`, `.month` and
`.year` index accessors of features.py lines 121-125; the engine treats
it as an opaque collaborator, so it is a parameter of the embedding. -/
structure Cal where
  hourOf : ℤ → ℤ
  weekdayOf : ℤ → ℤ
  monthOf : ℤ → ℤ
  yearOf : ℤ → ℤ

/-- One row of the input table of `add_features`: a station, an hourly
timestamp, the target cell, the precipitation cell, the remaining
exogenous weather cells (temperature, wind speed, flags, ...) and any
other numeric cells carried along (lat, lon, capacity, ...). -/
structure Row where
  station : ℕ
  time : ℤ
  target : Option ℚ
  precipitation : Option ℚ
  weather : List (Option ℚ)
  extra : List (Option ℚ)
deriving DecidableEq

/-- The configuration of `add_features`: lag offsets, rolling windows,
same-hour day windows, the number of exogenous weather columns besides
precipitation, and the period length of the frequency string. -/
structure FeatCfg where
  lags : List ℕ
  rollingWindows : List ℕ
  sameHourWindows : List ℕ
  numWeather : ℕ
  freq : ℤ
deriving DecidableEq

/-- One row of the feature table produced by `add_features`, holding the
original cells (weather already shifted), the engineered feature columns
and the calendar columns. -/
structure FeatRow where
  station : ℕ
  time : ℤ
  target : Option ℚ
  precipitation : Option ℚ
  weather : List (Option ℚ)
  extra : List (Option ℚ)
  lagVals : List (Option ℚ)
  rollMeans : List (Option ℚ)
  rollStds : List (Option ℚ)
  shMeans : List (Option ℚ)
  shStds : List (Option ℚ)
  hour : ℤ
  weekday : ℤ
  month : ℤ
  year : ℤ
  isWeekend : ℕ
  rain : ℕ
deriving DecidableEq

/-- The target series of one station's rows. -/
def toSeries (rows : List Row) : Series :=
  rows.map (fun r => (r.time, r.target))

/-- The series of the `c`-th non-precipitation weather column of one
station's rows. -/
def weatherCol (rows : List Row) (c : ℕ) : Series :=
  rows.map (fun r => (r.time, r.weather.getD c none))

/-- The precipitation series of one station's rows. -/
def precipCol (rows : List Row) : Series :=
  rows.map (fun r => (r.time, r.precipitation))

/-- The feature row `add_features` produces for row `r` of the station
group `rows` (features.py lines 108-133): lag columns, rolling mean/std
columns, same-hour mean/std columns, the calendar columns, the weather
columns shifted one period back, and the binary rain indicator computed
from the shifted precipitation (NaN compares as not-greater, giving 0). -/
def featRowOf (cal : Cal) (cfg : FeatCfg) (rows : List Row) (r : Row) : FeatRow :=
  let g := toSeries rows
  let shiftedPrecip := sget (shift_weather_col (precipCol rows) cfg.freq) r.time
  { station := r.station
    time := r.time
    target := r.target
    precipitation := shiftedPrecip
    weather := (List.range cfg.numWeather).map (fun c =>
      sget (shift_weather_col (weatherCol rows c) cfg.freq) r.time)
    extra := r.extra
    lagVals := cfg.lags.map (fun k => sget (lag_col g k cfg.freq) r.time)
    rollMeans := cfg.rollingWindows.map (fun w => sget (roll_mean_col g w cfg.freq) r.time)
    rollStds := cfg.rollingWindows.map (fun w => sget (roll_std_col g w cfg.freq) r.time)
    shMeans := cfg.sameHourWindows.map (fun d => sget (same_hour_mean_col g d cfg.freq) r.time)
    shStds := cfg.sameHourWindows.map (fun d => sget (same_hour_std_col g d cfg.freq) r.time)
    hour := cal.hourOf r.time
    weekday := cal.weekdayOf r.time
    month := cal.monthOf r.time
    year := cal.yearOf r.time
    isWeekend := if cal.weekdayOf r.time = 5 ∨ cal.weekdayOf r.time = 6 then 1 else 0
    rain := match shiftedPrecip with
      | some v => if 0 < v then 1 else 0
      | none => 0 }

/-- The stations of the table, in first-appearance order (the groupby
keys). -/
def stationsOf (df : List Row) : List ℕ :=
  (df.map (fun r => r.station)).dedup

/-- The rows of one station, in table order (one groupby group). -/
def groupRows (df : List Row) (e : ℕ) : List Row :=
  df.filter (fun r => r.station == e)

/-- The feature table before the drop-missing step: the per-station
groupby applies of features.py lines 112-133 fused into one per-group
pass (each of the successive `groupby(station_id).apply` calls adds
index-aligned columns for the same partition of the rows, so their
composition is a single per-group transform). -/
def preFeatures (cal : Cal) (cfg : FeatCfg) (df : List Row) : List FeatRow :=
  (stationsOf df).flatMap (fun e =>
    (groupRows df e).map (featRowOf cal cfg (groupRows df e)))

/-- Embedding of `df.dropna()` (features.py line 136) at the level of one
feature row: the row is kept iff no cell of any column is missing. -/
def keepRow (fr : FeatRow) : Bool :=
  fr.target.isSome && fr.precipitation.isSome
    && fr.weather.all (fun v => v.isSome) && fr.extra.all (fun v => v.isSome)
    && fr.lagVals.all (fun v => v.isSome) && fr.rollMeans.all (fun v => v.isSome)
    && fr.rollStds.all (fun v => v.isSome) && fr.shMeans.all (fun v => v.isSome)
    && fr.shStds.all (fun v => v.isSome)

/-- The (time, station) lexicographic order of
`df.sort_values(by=[time, station_id])` (features.py line 137). -/
def rowLe (a b : FeatRow) : Bool :=
  a.time < b.time || (a.time == b.time && a.station ≤ b.station)

/-- Embedding of `add_features` (features.py lines 83-140): per-station
feature derivation, drop of rows with any missing cell, stable sort by
(time, station). -/
def add_features (cal : Cal) (cfg : FeatCfg) (df : List Row) : List FeatRow :=
  List.insertionSort (fun a b => rowLe a b = true)
    ((preFeatures cal cfg df).filter keepRow)

/-- Embedding of the train/evaluation split of feature_engineering.py
lines 103-104: `train = features[year < 2024]`,
`val = features[year == 2024]`. -/
def splitByYear (features : List FeatRow) : List FeatRow × List FeatRow :=
  (features.filter (fun r => r.year < 2024), features.filter (fun r => r.year == 2024))

/-- A feature row whose year column is `y` and whose other cells are
fixed harmless values (used to exercise the year split on concrete
tables). -/
def mkYearRow (y : ℤ) : FeatRow :=
  { station := 1, time := 0, target := some 0, precipitation := some 0,
    weather := [], extra := [], lagVals := [], rollMeans := [], rollStds := [],
    shMeans := [], shStds := [], hour := 0, weekday := 0, month := 4, year := y,
    isWeekend := 0, rain := 0 }

/-- A trivial calendar (all accessors constant), usable where the
calendar content is irrelevant. -/
def calZero : Cal :=
  { hourOf := fun _ => 0, weekdayOf := fun _ => 0,
    monthOf := fun _ => 0, yearOf := fun _ => 0 }

/-- A feature configuration whose rolling-window list is the single
window 1. -/
def cfgRollOne : FeatCfg :=
  { lags := [], rollingWindows := [1], sameHourWindows := [],
    numWeather := 0, freq := 1 }

/-- A one-row input table. -/
def dfOne : List Row :=
  [{ station := 1, time := 0, target := some 5, precipitation := some 0,
     weather := [], extra := [] }]

/-- One cleaned bike ride, as consumed by `aggregate_hourly_departures`:
departure station id, departure time floored to the hour, and the
station's coordinate/capacity cells carried on the ride row. -/
structure Ride where
  depId : ℕ
  time : ℤ
  lat : Option ℚ
  lon : Option ℚ
  cap : Option ℚ
deriving DecidableEq

/-- One row of the dense hourly grid produced by
`aggregate_hourly_departures`. -/
structure GridRow where
  station : ℕ
  time : ℤ
  departures : ℕ
  lat : Option ℚ
  lon : Option ℚ
  cap : Option ℚ
deriving DecidableEq

/-- The departure-station ids of all rides. -/
def rideIds (rides : List Ride) : List ℕ :=
  rides.map (fun r => r.depId)

/-- Embedding of `value_counts().head(num_stations).index`
(feature_engineering.py lines 39-40): the distinct station ids sorted by
descending ride count (stable, so ties fall back to first appearance, as
in the hash-table insertion order of `value_counts`), truncated to the
first `n`. -/
def topStations (rides : List Ride) (n : ℕ) : List ℕ :=
  (List.insertionSort (fun a b => (rideIds rides).count b ≤ (rideIds rides).count a)
    ((rideIds rides).dedup)).take n

/-- Embedding of the season grid of feature_engineering.py lines 48-51:
the hourly `date_range` from the minimum to the maximum observed time,
restricted to the months April to October.  (pandas would fail on an
empty input; the claims below assume at least one ride.) -/
def seasonHours (cal : Cal) (rides : List Ride) : List ℤ :=
  match (rides.map (fun r => r.time)).min?, (rides.map (fun r => r.time)).max? with
  | some lo, some hi =>
      ((List.range ((hi - lo).toNat + 1)).map (fun i : ℕ => lo + (i : ℤ))).filter
        (fun t => 4 ≤ cal.monthOf t && cal.monthOf t ≤ 10)
  | _, _ => []

/-- Embedding of `bike_df[bike_df.departure_id.isin(top_stations)]`
(feature_engineering.py line 44). -/
def sampleRides (rides : List Ride) (top : List ℕ) : List Ride :=
  rides.filter (fun r => top.contains r.depId)

/-- The index of `groupby([time, departure_id]).size()` (line 45): the
distinct (station, time) keys of the sampled rides. -/
def groupKeys (rs : List Ride) : List (ℕ × ℤ) :=
  (rs.map (fun r => (r.depId, r.time))).dedup

/-- The size of one groupby group: the number of sampled rides with the
given (station, time) key. -/
def groupSize (rs : List Ride) (k : ℕ × ℤ) : ℕ :=
  (rs.map (fun r => (r.depId, r.time))).count k

/-- Embedding of `.reindex(full_index, fill_value=0)` (line 53) applied
to the groupby-size table: each key of the full index keeps its group
size when the key occurs and is filled with 0 otherwise. -/
def reindexDepartures (rs : List Ride) (full : List (ℕ × ℤ)) : List ((ℕ × ℤ) × ℕ) :=
  full.map (fun k => (k, if k ∈ groupKeys rs then groupSize rs k else 0))

/-- Embedding of
`bike_df[[departure_id, lat, lon, capacity]].drop_duplicates()`
(line 56). -/
def stationCoords (rides : List Ride) : List (ℕ × Option ℚ × Option ℚ × Option ℚ) :=
  (rides.map (fun r => (r.depId, r.lat, r.lon, r.cap))).dedup

/-- Embedding of `aggregate_hourly_departures` (feature_engineering.py
lines 29-60): top-station selection, hourly aggregation, reindex onto
the dense (station, season hour) product grid with 0 fill, and the left
merge of the station coordinate table (a left merge emits one output row
per matching coordinate row, or a single NaN-padded row when none
matches). -/
def aggregate_hourly_departures (cal : Cal) (rides : List Ride) (n : ℕ) :
    List GridRow :=
  let top := topStations rides n
  let hours := seasonHours cal rides
  let full := List.product top hours
  let base := reindexDepartures (sampleRides rides top) full
  base.flatMap (fun kc =>
    let ms := (stationCoords rides).filter (fun q => q.1 == kc.1.1)
    if ms.isEmpty then [⟨kc.1.1, kc.1.2, kc.2, none, none, none⟩]
    else ms.map (fun q => ⟨kc.1.1, kc.1.2, kc.2, q.2.1, q.2.2.1, q.2.2.2⟩))

/-- A calendar whose month accessor is constantly April, so every hour
lies in the season. -/
def calApril : Cal :=
  { hourOf := fun _ => 0, weekdayOf := fun _ => 0,
    monthOf := fun _ => 4, yearOf := fun _ => 0 }

/-- Two rides of the same station at the same hour whose ride rows carry
two different latitude cells (inconsistent station metadata). -/
def ridesDupCoords : List Ride :=
  [{ depId := 1, time := 0, lat := some 1, lon := none, cap := none },
   { depId := 1, time := 0, lat := some 2, lon := none, cap := none }]

/-- A single ride of station 1 at hour 0 with consistent metadata. -/
def ridesOne : List Ride :=
  [{ depId := 1, time := 0, lat := some 1, lon := some 2, cap := some 10 }]

/-- Strictly increasing timestamps: the invariant of an entity's series
(unique, sorted index). -/
def StrictTimes (g : Series) : Prop :=
  g.Pairwise (fun p q => p.1 < q.1)

instance (g : Series) : Decidable (StrictTimes g) := by
  unfold StrictTimes
  infer_instance

theorem sortIndex_eq_self {g : Series} (h : StrictTimes g) : sortIndex g = g :=
  List.Sorted.insertionSort_eq (h.imp (fun hlt => le_of_lt hlt))

theorem sget_not_mem {s : Series} {t : ℤ} (h : t ∉ s.map (fun p => p.1)) :
    sget s t = none := by
  unfold sget
  cases hf : s.find? (fun p => p.1 == t) with
  | none => rfl
  | some p =>
    exact absurd (List.mem_map.mpr ⟨p, List.mem_of_find?_eq_some hf, by
      simpa using List.find?_some hf⟩) h

theorem sget_reindexTo_of_mem {idx : List ℤ} {s : Series} {t : ℤ}
    (h : t ∈ idx) : sget (reindexTo idx s) t = sget s t := by
  induction idx with
  | nil => cases h
  | cons a l ih =>
    rcases List.mem_cons.mp h with rfl | hmem
    · simp [reindexTo, sget, List.find?]
    · by_cases hat : a = t
      · subst hat; simp [reindexTo, sget, List.find?]
      · have : ((a, sget s a).1 == t) = false := by simpa using hat
        simpa [reindexTo, sget, List.find?, this] using ih hmem

theorem sget_shiftF (k : ℤ) (s : Series) (t : ℤ) :
    sget (shiftF k s) t = sget s (t - k) := by
  induction s with
  | nil => rfl
  | cons p l ih =>
    by_cases hp : p.1 = t - k
    · have h1 : (p.1 + k == t) = true := by simp only [beq_iff_eq]; omega
      have h2 : (p.1 == t - k) = true := by simp [hp]
      simp [shiftF, sget, List.find?, h1, h2]
    · have h1 : (p.1 + k == t) = false := by
        simp only [beq_eq_false_iff_ne, ne_eq]; omega
      have h2 : (p.1 == t - k) = false := by simpa using hp
      simpa [shiftF, sget, List.find?, h1, h2] using ih

theorem map_fst_reindexTo (idx : List ℤ) (s : Series) :
    (reindexTo idx s).map (fun p => p.1) = idx := by
  simp [reindexTo, Function.comp_def]

theorem sget_reindexTo_not_mem {idx : List ℤ} {s : Series} {t : ℤ}
    (h : t ∉ idx) : sget (reindexTo idx s) t = none := by
  apply sget_not_mem
  rw [map_fst_reindexTo]
  exact h

theorem map_fst_shiftF (k : ℤ) (s : Series) :
    (shiftF k s).map (fun p => p.1) = s.map (fun p => p.1 + k) := by
  simp [shiftF]

theorem sget_zip_getElem {ts : List ℤ} {vs : List (Option ℚ)}
    (hnd : ts.Nodup) (i : ℕ) (hi : i < ts.length) (hv : i < vs.length) :
    sget (ts.zip vs) (ts[i]) = vs[i] := by
  induction ts generalizing vs i with
  | nil => simp at hi
  | cons a tl ih =>
    cases vs with
    | nil => simp at hv
    | cons b vt =>
      cases i with
      | zero => simp [sget, List.find?]
      | succ j =>
        have hj : j < tl.length := by simpa using hi
        have hjv : j < vt.length := by simpa using hv
        have hne : (a == tl[j]) = false := by
          have hmem : tl[j] ∈ tl := List.getElem_mem _
          have : a ≠ tl[j] := fun he => (List.nodup_cons.mp hnd).1 (he ▸ hmem)
          simpa using this
        have := ih (List.nodup_cons.mp hnd).2 j hj hjv
        simpa [sget, List.zip, List.find?, hne] using this

theorem sget_zip_not_mem {ts : List ℤ} {vs : List (Option ℚ)} {t : ℤ}
    (h : t ∉ ts) : sget (ts.zip vs) t = none := by
  apply sget_not_mem
  intro hmem
  rcases List.mem_map.mp hmem with ⟨p, hp, hpt⟩
  exact h (hpt ▸ (List.of_mem_zip hp).1)

theorem pairwise_lt_times_of_strict {g : Series} (h : StrictTimes g) :
    (g.map (fun p => p.1)).Pairwise (· < ·) :=
  List.pairwise_map.mpr h

theorem nodup_times_of_strict {g : Series} (h : StrictTimes g) :
    (g.map (fun p => p.1)).Nodup :=
  (pairwise_lt_times_of_strict h).imp ne_of_lt

theorem map_snd_shiftF (k : ℤ) (s : Series) :
    (shiftF k s).map (fun p => p.2) = s.map (fun p => p.2) := by
  simp [shiftF]

theorem strictTimes_shiftF {g : Series} (f : ℤ) (hg : StrictTimes g) :
    StrictTimes (shiftF f g) :=
  List.pairwise_map.mpr (hg.imp (fun h => by omega))

theorem length_rollApply (f : List ℚ → Option ℚ) (w : ℕ) (vs : List (Option ℚ)) :
    (rollApply f w vs).length = vs.length := by
  simp [rollApply]

theorem rollApply_getElem (f : List ℚ → Option ℚ) (w : ℕ) {vs : List (Option ℚ)}
    {i : ℕ} (hi : i < vs.length) (h2 : i < (rollApply f w vs).length) :
    (rollApply f w vs)[i] =
      (if w ≤ ((rollWindow vs w i).filterMap id).length
       then f ((rollWindow vs w i).filterMap id) else none) := by
  simp [rollApply]

theorem sget_roll_mean_col {g : Series} (hg : StrictTimes g) (w : ℕ) (f : ℤ)
    {i : ℕ} (hi : i < g.length)
    (ht : g[i].1 + f ∈ g.map (fun p => p.1)) :
    sget (roll_mean_col g w f) (g[i].1 + f) =
      (if w ≤ ((rollWindow (g.map (fun p => p.2)) w i).filterMap id).length
       then some (meanQ ((rollWindow (g.map (fun p => p.2)) w i).filterMap id))
       else none) := by
  have hnd : ((shiftF f g).map (fun p => p.1)).Nodup :=
    nodup_times_of_strict (strictTimes_shiftF f hg)
  have hits : i < ((shiftF f g).map (fun p => p.1)).length := by
    simpa [shiftF] using hi
  have hgel : ((shiftF f g).map (fun p => p.1))[i] = g[i].1 + f := by
    simp [shiftF]
  have hivs : i < (rollApply (fun xs => some (meanQ xs)) w
      ((shiftF f g).map (fun p => p.2))).length := by
    rw [length_rollApply]
    simpa [shiftF] using hi
  unfold roll_mean_col withIndex
  rw [sortIndex_eq_self hg, sget_reindexTo_of_mem ht, ← hgel,
    sget_zip_getElem hnd i hits hivs,
    rollApply_getElem _ _ (by simpa [shiftF] using hi) hivs,
    map_snd_shiftF]

theorem sget_roll_mean_col_none {g : Series} (hg : StrictTimes g) (w : ℕ) (f : ℤ)
    {t : ℤ} (ht : t - f ∉ g.map (fun p => p.1)) :
    sget (roll_mean_col g w f) t = none := by
  by_cases hmem : t ∈ g.map (fun p => p.1)
  · unfold roll_mean_col withIndex
    rw [sortIndex_eq_self hg, sget_reindexTo_of_mem hmem]
    apply sget_zip_not_mem
    rw [map_fst_shiftF]
    intro hc
    rcases List.mem_map.mp hc with ⟨p, hp, he⟩
    have he2 : p.1 + f = t := he
    exact ht (List.mem_map.mpr ⟨p, hp, show p.1 = t - f by omega⟩)
  · unfold roll_mean_col
    rw [sortIndex_eq_self hg]
    exact sget_reindexTo_not_mem hmem

theorem sget_roll_mean_col_not_index {g : Series} (hg : StrictTimes g)
    (w : ℕ) (f : ℤ) {t : ℤ} (ht : t ∉ g.map (fun p => p.1)) :
    sget (roll_mean_col g w f) t = none := by
  unfold roll_mean_col
  rw [sortIndex_eq_self hg]
  exact sget_reindexTo_not_mem ht

theorem sget_roll_std_col {g : Series} (hg : StrictTimes g) (w : ℕ) (f : ℤ)
    {i : ℕ} (hi : i < g.length)
    (ht : g[i].1 + f ∈ g.map (fun p => p.1)) :
    sget (roll_std_col g w f) (g[i].1 + f) =
      (if w ≤ ((rollWindow (g.map (fun p => p.2)) w i).filterMap id).length
       then varQ ((rollWindow (g.map (fun p => p.2)) w i).filterMap id)
       else none) := by
  have hnd : ((shiftF f g).map (fun p => p.1)).Nodup :=
    nodup_times_of_strict (strictTimes_shiftF f hg)
  have hits : i < ((shiftF f g).map (fun p => p.1)).length := by
    simpa [shiftF] using hi
  have hgel : ((shiftF f g).map (fun p => p.1))[i] = g[i].1 + f := by
    simp [shiftF]
  have hivs : i < (rollApply varQ w ((shiftF f g).map (fun p => p.2))).length := by
    rw [length_rollApply]
    simpa [shiftF] using hi
  unfold roll_std_col withIndex
  rw [sortIndex_eq_self hg, sget_reindexTo_of_mem ht, ← hgel,
    sget_zip_getElem hnd i hits hivs,
    rollApply_getElem _ _ (by simpa [shiftF] using hi) hivs,
    map_snd_shiftF]

theorem sget_roll_std_col_none {g : Series} (hg : StrictTimes g) (w : ℕ) (f : ℤ)
    {t : ℤ} (ht : t - f ∉ g.map (fun p => p.1)) :
    sget (roll_std_col g w f) t = none := by
  by_cases hmem : t ∈ g.map (fun p => p.1)
  · unfold roll_std_col withIndex
    rw [sortIndex_eq_self hg, sget_reindexTo_of_mem hmem]
    apply sget_zip_not_mem
    rw [map_fst_shiftF]
    intro hc
    rcases List.mem_map.mp hc with ⟨p, hp, he⟩
    have he2 : p.1 + f = t := he
    exact ht (List.mem_map.mpr ⟨p, hp, show p.1 = t - f by omega⟩)
  · unfold roll_std_col
    rw [sortIndex_eq_self hg]
    exact sget_reindexTo_not_mem hmem

theorem sget_roll_std_col_not_index {g : Series} (hg : StrictTimes g)
    (w : ℕ) (f : ℤ) {t : ℤ} (ht : t ∉ g.map (fun p => p.1)) :
    sget (roll_std_col g w f) t = none := by
  unfold roll_std_col
  rw [sortIndex_eq_self hg]
  exact sget_reindexTo_not_mem ht

theorem map_fst_updateAtTime (g : Series) (t : ℤ) (v : Option ℚ) :
    (updateAtTime g t v).map (fun p => p.1) = g.map (fun p => p.1) := by
  unfold updateAtTime
  rw [List.map_map]
  apply List.map_congr_left
  intro p hp
  by_cases h : p.1 = t <;> simp [h]

theorem strictTimes_updateAtTime {g : Series} (hg : StrictTimes g)
    (t : ℤ) (v : Option ℚ) : StrictTimes (updateAtTime g t v) := by
  apply List.pairwise_map.mpr
  refine hg.imp (fun h => ?_)
  split_ifs <;> simpa

theorem length_updateAtTime (g : Series) (t : ℤ) (v : Option ℚ) :
    (updateAtTime g t v).length = g.length := by
  simp [updateAtTime]

theorem take_map_snd_updateAtTime {g : Series} (hg : StrictTimes g)
    {t f : ℤ} (hf : 0 < f) {i : ℕ} (hi : i < g.length)
    (hit : g[i].1 = t - f) (v : Option ℚ) :
    ((updateAtTime g t v).map (fun p => p.2)).take (i + 1)
      = (g.map (fun p => p.2)).take (i + 1) := by
  apply List.ext_getElem
  · simp [updateAtTime]
  · intro j h1 h2
    have hjg : j < g.length := by
      simp [updateAtTime] at h1
      omega
    have hji : j ≤ i := by
      simp [updateAtTime] at h1
      omega
    have hjt : g[j].1 < t := by
      have hle : g[j].1 ≤ g[i].1 := by
        rcases Nat.lt_or_ge j i with hlt | hge
        · exact le_of_lt ((List.pairwise_iff_getElem.mp hg) j i hjg hi hlt)
        · have : j = i := le_antisymm hji hge
          subst this
          exact le_refl _
      omega
    simp only [List.getElem_take, List.getElem_map, updateAtTime]
    have : (g[j].1 = t) = False := by simp; omega
    simp [this]

theorem sget_roll_mean_col_update {g : Series} (hg : StrictTimes g)
    (w : ℕ) {f : ℤ} (hf : 0 < f) (t : ℤ) (v : Option ℚ) :
    sget (roll_mean_col (updateAtTime g t v) w f) t
      = sget (roll_mean_col g w f) t := by
  by_cases hmem : t - f ∈ g.map (fun p => p.1)
  · rcases List.mem_map.mp hmem with ⟨p, hp, hpt⟩
    rcases List.getElem_of_mem hp with ⟨i, hi, hgi⟩
    have hit : g[i].1 = t - f := by rw [hgi]; exact hpt
    have ht2 : t = g[i].1 + f := by omega
    subst ht2
    by_cases htm : g[i].1 + f ∈ g.map (fun p => p.1)
    · have hi2 : i < (updateAtTime g (g[i].1 + f) v).length := by
        rw [length_updateAtTime]; exact hi
      have hne : ¬ (g[i].1 = g[i].1 + f) := by omega
      have hupd_el : (updateAtTime g (g[i].1 + f) v)[i] = g[i] := by
        simp [updateAtTime, hne]
      have htm2 : (updateAtTime g (g[i].1 + f) v)[i].1 + f
          ∈ (updateAtTime g (g[i].1 + f) v).map (fun p => p.1) := by
        rw [hupd_el, map_fst_updateAtTime]
        exact htm
      have h1 := sget_roll_mean_col hg w f hi htm
      have h2 := sget_roll_mean_col
        (strictTimes_updateAtTime hg (g[i].1 + f) v) w f hi2 htm2
      rw [hupd_el] at h2
      rw [h1, h2]
      have hw := take_map_snd_updateAtTime (t := g[i].1 + f) hg hf hi (by omega) v
      unfold rollWindow
      rw [hw]
    · rw [sget_roll_mean_col_not_index hg w f htm,
        sget_roll_mean_col_not_index
          (strictTimes_updateAtTime hg (g[i].1 + f) v) w f
          (by rw [map_fst_updateAtTime]; exact htm)]
  · rw [sget_roll_mean_col_none hg w f hmem,
      sget_roll_mean_col_none (strictTimes_updateAtTime hg t v) w f
        (by rw [map_fst_updateAtTime]; exact hmem)]

theorem sget_roll_std_col_update {g : Series} (hg : StrictTimes g)
    (w : ℕ) {f : ℤ} (hf : 0 < f) (t : ℤ) (v : Option ℚ) :
    sget (roll_std_col (updateAtTime g t v) w f) t
      = sget (roll_std_col g w f) t := by
  by_cases hmem : t - f ∈ g.map (fun p => p.1)
  · rcases List.mem_map.mp hmem with ⟨p, hp, hpt⟩
    rcases List.getElem_of_mem hp with ⟨i, hi, hgi⟩
    have hit : g[i].1 = t - f := by rw [hgi]; exact hpt
    have ht2 : t = g[i].1 + f := by omega
    subst ht2
    by_cases htm : g[i].1 + f ∈ g.map (fun p => p.1)
    · have hi2 : i < (updateAtTime g (g[i].1 + f) v).length := by
        rw [length_updateAtTime]; exact hi
      have hne : ¬ (g[i].1 = g[i].1 + f) := by omega
      have hupd_el : (updateAtTime g (g[i].1 + f) v)[i] = g[i] := by
        simp [updateAtTime, hne]
      have htm2 : (updateAtTime g (g[i].1 + f) v)[i].1 + f
          ∈ (updateAtTime g (g[i].1 + f) v).map (fun p => p.1) := by
        rw [hupd_el, map_fst_updateAtTime]
        exact htm
      have h1 := sget_roll_std_col hg w f hi htm
      have h2 := sget_roll_std_col
        (strictTimes_updateAtTime hg (g[i].1 + f) v) w f hi2 htm2
      rw [hupd_el] at h2
      rw [h1, h2]
      have hw := take_map_snd_updateAtTime (t := g[i].1 + f) hg hf hi (by omega) v
      unfold rollWindow
      rw [hw]
    · rw [sget_roll_std_col_not_index hg w f htm,
        sget_roll_std_col_not_index
          (strictTimes_updateAtTime hg (g[i].1 + f) v) w f
          (by rw [map_fst_updateAtTime]; exact htm)]
  · rw [sget_roll_std_col_none hg w f hmem,
      sget_roll_std_col_none (strictTimes_updateAtTime hg t v) w f
        (by rw [map_fst_updateAtTime]; exact hmem)]

/-- C1 (amended).  For an entity series with strictly increasing
timestamps and a positive frequency: (i) both the rolling mean and the
rolling std at label `t` are missing whenever `t - freq` is not an
observed timestamp; (ii) when `t - freq` is the `i`-th observed
timestamp and `t` itself is a label of the series, the rolling mean and
the rolling std at `t` are computed from exactly the trailing `w`
observations at positions up to `i` — all of which carry timestamps
strictly before `t` — and are present exactly when that window holds `w`
non-missing entries (the std additionally needs `w` of at least 2, which
`varQ` enforces); (iii) consequently changing the target value at
`(e, t)` never changes the rolling mean or the rolling std at `(e, t)`.
The original claim's stronger clauses — that the window is exactly the
timestamps `[t - w, t - 1]` and that the features are missing unless `w`
consecutive prior observations exist — hold only for series contiguous
at the frequency and fail in general (see the counterexample). -/
theorem C1_rolling_strictly_past {g : Series} (hg : StrictTimes g)
    (w : ℕ) (f : ℤ) (hf : 0 < f) (t : ℤ) :
    ((t - f ∉ g.map (fun p => p.1)) →
      sget (roll_mean_col g w f) t = none ∧ sget (roll_std_col g w f) t = none) ∧
    (∀ i : ℕ, (hi : i < g.length) → g[i].1 = t - f →
      t ∈ g.map (fun p => p.1) →
      (sget (roll_mean_col g w f) t =
        (if w ≤ ((rollWindow (g.map (fun p => p.2)) w i).filterMap id).length
         then some (meanQ ((rollWindow (g.map (fun p => p.2)) w i).filterMap id))
         else none)) ∧
      (sget (roll_std_col g w f) t =
        (if w ≤ ((rollWindow (g.map (fun p => p.2)) w i).filterMap id).length
         then varQ ((rollWindow (g.map (fun p => p.2)) w i).filterMap id)
         else none)) ∧
      (∀ j : ℕ, (hj : j < g.length) → j ≤ i → g[j].1 < t)) ∧
    (∀ v : Option ℚ,
      sget (roll_mean_col (updateAtTime g t v) w f) t
        = sget (roll_mean_col g w f) t ∧
      sget (roll_std_col (updateAtTime g t v) w f) t
        = sget (roll_std_col g w f) t) := by
  refine ⟨fun ht => ⟨sget_roll_mean_col_none hg w f ht,
      sget_roll_std_col_none hg w f ht⟩,
    fun i hi hit htm => ⟨?_, ?_, ?_⟩,
    fun v => ⟨sget_roll_mean_col_update hg w hf t v,
      sget_roll_std_col_update hg w hf t v⟩⟩
  · have ht2 : t = g[i].1 + f := by omega
    subst ht2
    exact sget_roll_mean_col hg w f hi htm
  · have ht2 : t = g[i].1 + f := by omega
    subst ht2
    exact sget_roll_std_col hg w f hi htm
  · intro j hj hjle
    rcases Nat.lt_or_ge j i with hlt | hge
    · have := (List.pairwise_iff_getElem.mp hg) j i hj hi hlt
      omega
    · have hji : j = i := le_antisymm hjle hge
      subst hji
      omega

/-- C1 as frozen is false: on the series with hourly target observations
at times 0, 2 and 3 (time 1 missing), window w = 2 and frequency 1, the
rolling mean at t = 3 is the mean (1 + 5) / 2 = 3 of the last two
observations (times 0 and 2) even though the claimed window
[t - 2, t - 1] = [1, 2] is not fully observed (1 is absent), where the
claim requires the feature to be missing. -/
theorem C1_counterexample :
    sget (roll_mean_col [((0 : ℤ), some (1 : ℚ)), (2, some 5), (3, some 9)] 2 1) 3
      = some 3 ∧
    (1 : ℤ) ∉ ([((0 : ℤ), some (1 : ℚ)), (2, some 5), (3, some 9)].map
      (fun p => p.1)) := by
  constructor
  · have h := sget_roll_mean_col
      (g := [((0 : ℤ), some (1 : ℚ)), (2, some 5), (3, some 9)])
      (by decide) 2 1 (i := 1) (by decide) (by decide)
    have h2 : sget (roll_mean_col
        [((0 : ℤ), some (1 : ℚ)), (2, some 5), (3, some 9)] 2 1) 3 =
        (if 2 ≤ ((rollWindow ([((0 : ℤ), some (1 : ℚ)), (2, some 5), (3, some 9)].map
            (fun p => p.2)) 2 1).filterMap id).length
         then some (meanQ ((rollWindow ([((0 : ℤ), some (1 : ℚ)), (2, some 5),
            (3, some 9)].map (fun p => p.2)) 2 1).filterMap id))
         else none) := h
    rw [h2]
    have h3 : ((rollWindow ([((0 : ℤ), some (1 : ℚ)), (2, some 5),
        (3, some 9)].map (fun p => p.2)) 2 1).filterMap id) = [1, 5] := by decide
    rw [h3]
    norm_num [meanQ]
  · decide

/-- Witness instantiating `C1_rolling_strictly_past` on a concrete
series: entity observed at times 0, 1 and 2 with values 2, 4 and 6,
window 2, frequency 1, label 2; the amended characterization yields the
rolling mean 3 and the rolling sample variance 2 (the square of the
source's std) of the trailing window [2, 4]. -/
theorem C1_witness :
    StrictTimes [((0 : ℤ), some (2 : ℚ)), (1, some 4), (2, some 6)] ∧
    sget (roll_mean_col [((0 : ℤ), some (2 : ℚ)), (1, some 4), (2, some 6)] 2 1) 2
      = some 3 ∧
    sget (roll_std_col [((0 : ℤ), some (2 : ℚ)), (1, some 4), (2, some 6)] 2 1) 2
      = some 2 := by
  refine ⟨by decide, ?_, ?_⟩
  · have h := (C1_rolling_strictly_past
      (g := [((0 : ℤ), some (2 : ℚ)), (1, some 4), (2, some 6)])
      (by decide) 2 1 (by decide) 2).2.1 1 (by decide) (by decide) (by decide)
    rw [h.1]
    have h3 : ((rollWindow ([((0 : ℤ), some (2 : ℚ)), (1, some 4), (2, some 6)].map
        (fun p => p.2)) 2 1).filterMap id) = [2, 4] := by decide
    rw [h3]
    norm_num [meanQ]
  · have h := (C1_rolling_strictly_past
      (g := [((0 : ℤ), some (2 : ℚ)), (1, some 4), (2, some 6)])
      (by decide) 2 1 (by decide) 2).2.1 1 (by decide) (by decide) (by decide)
    rw [h.2.1]
    have h3 : ((rollWindow ([((0 : ℤ), some (2 : ℚ)), (1, some 4), (2, some 6)].map
        (fun p => p.2)) 2 1).filterMap id) = [2, 4] := by decide
    rw [h3]
    norm_num [varQ, meanQ]

theorem sget_map_withTime {g : Series} (F : ℤ → Option ℚ) {t : ℤ}
    (ht : t ∈ g.map (fun p => p.1)) :
    sget (g.map (fun p => (p.1, F p.1))) t = F t := by
  induction g with
  | nil => simp at ht
  | cons p l ih =>
    by_cases hp : p.1 = t
    · have hbeq : (p.1 == t) = true := by simp [hp]
      simp [sget, List.find?, hbeq, hp]
    · have hne : (p.1 == t) = false := by simpa using hp
      have ht2 : t ∈ l.map (fun p => p.1) := by
        rcases List.mem_map.mp ht with ⟨q, hq, hqt⟩
        rcases List.mem_cons.mp hq with rfl | hql
        · exact absurd hqt hp
        · exact List.mem_map.mpr ⟨q, hql, hqt⟩
      simpa [sget, List.find?, hne] using ih ht2

/-- C8: the lag feature at a label `t` of the entity's series equals the
target at `t - k * freq` — the cell when that timestamp is observed, and
missing (in particular when `t - k * freq` is not a timestamp of the
series) otherwise; and the lag column of a station is a function of that
station's rows only, so it never depends on observations of any other
entity. -/
theorem C8_lag_feature {g : Series} (hg : StrictTimes g) (k : ℕ) (f : ℤ)
    {t : ℤ} (ht : t ∈ g.map (fun p => p.1)) :
    (sget (lag_col g k f) t = sget g (t - k * f)) ∧
    ((t - k * f) ∉ g.map (fun p => p.1) → sget (lag_col g k f) t = none) ∧
    (∀ df dg : List Row, ∀ e : ℕ, groupRows df e = groupRows dg e →
      lag_col (toSeries (groupRows df e)) k f
        = lag_col (toSeries (groupRows dg e)) k f) := by
  have hmain : sget (lag_col g k f) t = sget g (t - k * f) := by
    unfold lag_col
    rw [sortIndex_eq_self hg, sget_reindexTo_of_mem ht, sget_shiftF]
  exact ⟨hmain, fun hab => by rw [hmain]; exact sget_not_mem hab,
    fun df dg e h => by rw [h]⟩

/-- Witness for C8 on a concrete series: with observations 7 and 8 at
times 0 and 1, lag 1 at time 1 is the value 7 observed at time 0. -/
theorem C8_witness :
    StrictTimes [((0 : ℤ), some (7 : ℚ)), (1, some 8)] ∧
    sget (lag_col [((0 : ℤ), some (7 : ℚ)), (1, some 8)] 1 1) 1 = some 7 := by
  refine ⟨by decide, ?_⟩
  rw [(C8_lag_feature (g := [((0 : ℤ), some (7 : ℚ)), (1, some 8)])
    (by decide) 1 1 (by decide)).1]
  decide

/-- C9: the shifted exogenous (weather) column at a label `t` of the
entity's series equals the raw value at `t - freq` — missing when
`t - freq` is not a timestamp of the series — and at the first (minimal)
timestamp of the entity it is always missing, so no row exposes the
covariate observed at its own timestamp. -/
theorem C9_weather_shift {g : Series} (hg : StrictTimes g) (f : ℤ) (hf : 0 < f)
    {t : ℤ} (ht : t ∈ g.map (fun p => p.1)) :
    (sget (shift_weather_col g f) t = sget g (t - f)) ∧
    ((t - f) ∉ g.map (fun p => p.1) → sget (shift_weather_col g f) t = none) ∧
    ((∀ p ∈ g, t ≤ p.1) → sget (shift_weather_col g f) t = none) := by
  have hmain : sget (shift_weather_col g f) t = sget g (t - f) := by
    unfold shift_weather_col
    rw [sortIndex_eq_self hg, sget_reindexTo_of_mem ht, sget_shiftF]
  refine ⟨hmain, fun hab => by rw [hmain]; exact sget_not_mem hab, fun hmin => ?_⟩
  rw [hmain]
  apply sget_not_mem
  intro hc
  rcases List.mem_map.mp hc with ⟨p, hp, hpt⟩
  have h1 : p.1 = t - f := hpt
  have h2 : t ≤ p.1 := hmin p hp
  omega

/-- Witness for C9 on a concrete series: weather 1 and 2 observed at
times 5 and 6; the shifted column at time 6 is the value 1 observed at
time 5, and at the first timestamp 5 it is missing. -/
theorem C9_witness :
    StrictTimes [((5 : ℤ), some (1 : ℚ)), (6, some 2)] ∧
    sget (shift_weather_col [((5 : ℤ), some (1 : ℚ)), (6, some 2)] 1) 6 = some 1 ∧
    sget (shift_weather_col [((5 : ℤ), some (1 : ℚ)), (6, some 2)] 1) 5 = none := by
  refine ⟨by decide, ?_, ?_⟩
  · rw [(C9_weather_shift (g := [((5 : ℤ), some (1 : ℚ)), (6, some 2)])
      (by decide) 1 (by decide) (by decide)).1]
    decide
  · exact (C9_weather_shift (g := [((5 : ℤ), some (1 : ℚ)), (6, some 2)])
      (by decide) 1 (by decide) (by decide)).2.2 (by decide)

theorem rowMean_eq_none_iff (os : List (Option ℚ)) :
    rowMean os = none ↔ ∀ o ∈ os, o = none := by
  show (if (List.filterMap id os).length = 0 then none
    else some (meanQ (List.filterMap id os))) = none ↔ ∀ o ∈ os, o = none
  split
  case isTrue h =>
    rw [List.length_eq_zero, List.filterMap_eq_nil_iff] at h
    simp only [eq_self_iff_true, true_iff]
    intro o ho
    simpa using h o ho
  case isFalse h =>
    constructor
    · intro hc
      simp at hc
    · intro hall
      exfalso
      apply h
      rw [List.length_eq_zero, List.filterMap_eq_nil_iff]
      intro a ha
      simpa using hall a ha

theorem length_filterMap_of_isSome (os : List (Option ℚ))
    (h : ∀ o ∈ os, o.isSome) : (os.filterMap id).length = os.length := by
  induction os with
  | nil => rfl
  | cons o l ih =>
    cases o with
    | none => simpa using h none (List.mem_cons_self _ _)
    | some v =>
      have := ih (fun o ho => h o (List.mem_cons_of_mem _ ho))
      simpa using this

/-- C3 (amended).  The same-hour feature at a label `t` of the entity's
series is the NaN-skipping mean of the auxiliary cells
`target(e, t - 24), ..., target(e, t - 24 d)`: it equals the mean of the
values among them that are present; it is missing iff none of them is
present (not, as claimed, when any of them is absent); for `d = 1` it is
exactly the target one day earlier; and when all `d` timestamps are
present it is the mean of exactly those `d` values. -/
theorem C3_same_hour_mean {g : Series} (hg : StrictTimes g) (d : ℕ) (f : ℤ)
    {t : ℤ} (ht : t ∈ g.map (fun p => p.1)) :
    (sget (same_hour_mean_col g d f) t
      = rowMean ((List.range d).map (fun i => sget g (t - (i + 1 : ℕ) * 24 * f)))) ∧
    (sget (same_hour_mean_col g d f) t = none ↔
      ∀ i : ℕ, i < d → sget g (t - (i + 1 : ℕ) * 24 * f) = none) ∧
    (d = 1 → sget (same_hour_mean_col g d f) t = sget g (t - 24 * f)) ∧
    ((∀ i : ℕ, i < d → (sget g (t - (i + 1 : ℕ) * 24 * f)).isSome) → 0 < d →
      sget (same_hour_mean_col g d f) t
        = some (meanQ (((List.range d).map
            (fun i => sget g (t - (i + 1 : ℕ) * 24 * f))).filterMap id)) ∧
      (((List.range d).map
          (fun i => sget g (t - (i + 1 : ℕ) * 24 * f))).filterMap id).length = d) := by
  have h1 : sget (same_hour_mean_col g d f) t
      = rowMean ((List.range d).map (fun i => sget g (t - (i + 1 : ℕ) * 24 * f))) := by
    unfold same_hour_mean_col
    rw [sortIndex_eq_self hg]
    rw [sget_map_withTime (F := fun s => rowMean ((List.range d).map
      (fun i => sget (shiftF ((i + 1 : ℕ) * 24 * f) g) s))) ht]
    simp only [sget_shiftF]
  refine ⟨h1, ?_, ?_, ?_⟩
  · rw [h1, rowMean_eq_none_iff]
    constructor
    · intro hall i hi
      exact hall _ (List.mem_map.mpr ⟨i, List.mem_range.mpr hi, rfl⟩)
    · intro hall o ho
      rcases List.mem_map.mp ho with ⟨i, hi, rfl⟩
      exact hall i (List.mem_range.mp hi)
  · intro hd
    subst hd
    rw [h1]
    have hr1 : List.range 1 = [0] := rfl
    rw [hr1]
    simp only [List.map_cons, List.map_nil]
    have hcast : ((0 + 1 : ℕ) : ℤ) * 24 * f = 24 * f := by push_cast; ring
    rw [hcast]
    cases ho : sget g (t - 24 * f) with
    | none => simp [rowMean]
    | some v =>
      simp [rowMean, meanQ]
  · intro hall hd
    have hlen : (((List.range d).map
        (fun i => sget g (t - (i + 1 : ℕ) * 24 * f))).filterMap id).length = d := by
      rw [length_filterMap_of_isSome]
      · simp
      · intro o ho
        rcases List.mem_map.mp ho with ⟨i, hi, rfl⟩
        exact hall i (List.mem_range.mp hi)
    refine ⟨?_, hlen⟩
    rw [h1]
    have hne : ¬ ((((List.range d).map
        (fun i => sget g (t - (i + 1 : ℕ) * 24 * f))).filterMap id).length = 0) := by
      rw [hlen]
      omega
    simp only [rowMean, if_neg hne]

/-- C3 as frozen is false: on the series observed at times 24 and 48
with day-window d = 2 and frequency 1, the feature at t = 48 is present
(the NaN-skipping row mean keeps the single available value at t - 24)
although t - 48 = 0 is not a timestamp of the series, where the claim
requires the feature to be missing since not all of the d = 2 timestamps
are present. -/
theorem C3_counterexample :
    (sget (same_hour_mean_col [((24 : ℤ), some (5 : ℚ)), (48, some 7)] 2 1) 48).isSome
      = true ∧
    (0 : ℤ) ∉ ([((24 : ℤ), some (5 : ℚ)), (48, some 7)].map (fun p => p.1)) := by
  constructor
  · decide
  · decide

/-- Witness instantiating `C3_same_hour_mean` at d = 1 on a concrete
series: with targets 2 and 4 at times 0 and 24, the same-hour feature at
t = 24 is the value 2 observed exactly one day earlier. -/
theorem C3_witness :
    StrictTimes [((0 : ℤ), some (2 : ℚ)), (24, some 4)] ∧
    sget (same_hour_mean_col [((0 : ℤ), some (2 : ℚ)), (24, some 4)] 1 1) 24
      = some 2 := by
  refine ⟨by decide, ?_⟩
  rw [(C3_same_hour_mean (g := [((0 : ℤ), some (2 : ℚ)), (24, some 4)])
    (by decide) 1 1 (by decide)).2.2.1 rfl]
  decide

theorem getD_map_range {α : Type} (F : ℕ → α) (n i : ℕ) (d : α) :
    ((List.range n).map F).getD i d = if i < n then F i else d := by
  rw [List.getD_eq_getElem?_getD, List.getElem?_map]
  by_cases h : i < n
  · rw [List.getElem?_range h]
    simp [h]
  · rw [List.getElem?_eq_none (by simpa using h)]
    simp [h]

theorem getD_of_forall_none {ys : List (Option ℚ)} (h : ∀ o ∈ ys, o = none)
    (r : ℕ) : ys.getD r none = none := by
  rw [List.getD_eq_getElem?_getD]
  cases hge : ys[r]? with
  | none => rfl
  | some o =>
    have : o ∈ ys := List.getElem?_mem hge
    rw [h o this]
    rfl

theorem getD_replicate_none (L r : ℕ) :
    (List.replicate L (none : Option ℚ)).getD r none = none :=
  getD_of_forall_none (fun o ho => (List.eq_of_mem_replicate ho)) r

theorem groupId_mono (xs : List (Option ℚ)) {j i : ℕ} (h : j ≤ i) :
    groupId xs j ≤ groupId xs i := by
  unfold groupId
  have hdecomp : xs.take (i + 1) = xs.take (j + 1) ++ (xs.drop (j + 1)).take (i - j) := by
    rw [← List.take_add]
    congr 1
    omega
  rw [hdecomp, List.countP_append]
  omega

theorem groupId_succ_of_some {xs : List (Option ℚ)} {i : ℕ} {v : ℚ}
    (hlen : i < xs.length) (hsome : xs.getD i none = some v) :
    groupId xs i = (xs.take i).countP (fun o => o.isSome) + 1 := by
  unfold groupId
  rw [List.take_succ, List.countP_append]
  have hge : xs[i]? = some (some v) := by
    rw [List.getD_eq_getElem?_getD] at hsome
    cases hx : xs[i]? with
    | none => rw [hx] at hsome; simp at hsome
    | some o => rw [hx] at hsome; simp at hsome; rw [hsome]
  rw [hge]
  rfl

theorem groupId_of_none_succ {xs : List (Option ℚ)} {i : ℕ}
    (hnone : xs.getD i none = none) :
    groupId xs i = (xs.take i).countP (fun o => o.isSome) := by
  unfold groupId
  rw [List.take_succ, List.countP_append]
  cases hx : xs[i]? with
  | none => simp [hx]
  | some o =>
    rw [List.getD_eq_getElem?_getD, hx] at hnone
    simp at hnone
    simp [hx, hnone]

theorem groupId_lt_of_some {xs : List (Option ℚ)} {j i : ℕ} {v : ℚ}
    (hji : j < i) (hlen : i < xs.length) (hsome : xs.getD i none = some v) :
    groupId xs j < groupId xs i := by
  rw [groupId_succ_of_some hlen hsome]
  have h1 : groupId xs j ≤ (xs.take i).countP (fun o => o.isSome) := by
    unfold groupId
    have hdecomp : xs.take i = xs.take (j + 1) ++ (xs.drop (j + 1)).take (i - (j + 1)) := by
      rw [← List.take_add]
      congr 1
      omega
    rw [hdecomp, List.countP_append]
    omega
  omega

theorem groupId_zero_of_none {xs : List (Option ℚ)} {i : ℕ}
    (hnone : ∀ j, j ≤ i → xs.getD j none = none) :
    groupId xs i = 0 := by
  induction i with
  | zero =>
    rw [groupId_of_none_succ (hnone 0 (le_refl 0))]
    simp
  | succ k ih =>
    rw [groupId_of_none_succ (hnone (k + 1) (le_refl _))]
    have := ih (fun j hj => hnone j (by omega))
    unfold groupId at this
    exact this

theorem groupId_pos_of_some {xs : List (Option ℚ)} {j i : ℕ} {v : ℚ}
    (hji : j ≤ i) (hlen : j < xs.length) (hsome : xs.getD j none = some v) :
    1 ≤ groupId xs i := by
  have h1 := groupId_succ_of_some hlen hsome
  have h2 := groupId_mono xs hji
  omega

theorem groupId_eq_zero_iff {xs : List (Option ℚ)} {i : ℕ} (hlen : i < xs.length) :
    groupId xs i = 0 ↔ ∀ j, j ≤ i → xs.getD j none = none := by
  constructor
  · intro h0 j hj
    cases hx : xs.getD j none with
    | none => rfl
    | some v =>
      have := groupId_pos_of_some hj (by omega) hx
      omega
  · exact groupId_zero_of_none

theorem mem_groupPos {xs : List (Option ℚ)} {g i : ℕ} :
    i ∈ groupPos xs g ↔ i < xs.length ∧ groupId xs i = g := by
  simp [groupPos, List.mem_filter, List.mem_range]

theorem pairwise_groupPos (xs : List (Option ℚ)) (g : ℕ) :
    (groupPos xs g).Pairwise (· < ·) :=
  (List.pairwise_lt_range xs.length).filter _

theorem interpSlice_getD_of_lt {ys : List (Option ℚ)} {i : ℕ} (h : i < ys.length) :
    (interpSlice ys).getD i none =
      (match ys.getD i none with
       | some v => some v
       | none =>
         match prevValid ys i, nextValid ys i with
         | some pa, some nb =>
             some (pa.2 + (nb.2 - pa.2) * (((i : ℚ) - (pa.1 : ℚ)) / ((nb.1 : ℚ) - (pa.1 : ℚ))))
         | some pa, none => some pa.2
         | none, _ => none) := by
  unfold interpSlice
  rw [getD_map_range]
  rw [if_pos h]

theorem prevValid_of_forall_none {ys : List (Option ℚ)}
    (h : ∀ o ∈ ys, o = none) (i : ℕ) : prevValid ys i = none := by
  unfold prevValid
  have hnil : ((List.range i).map (fun j => (j, ys.getD j none))).filterMap
      (fun p => p.2.map (fun v => (p.1, v))) = [] := by
    rw [List.filterMap_eq_nil_iff]
    intro p hp
    rcases List.mem_map.mp hp with ⟨j, _, rfl⟩
    rw [getD_of_forall_none h]
    rfl
  rw [hnil]
  rfl

theorem interpSlice_all_none {ys : List (Option ℚ)}
    (h : ∀ o ∈ ys, o = none) (r : ℕ) :
    (interpSlice ys).getD r none = none := by
  by_cases hr : r < ys.length
  · rw [interpSlice_getD_of_lt hr, getD_of_forall_none h, prevValid_of_forall_none h]
  · unfold interpSlice
    rw [getD_map_range, if_neg hr]

theorem interpSlice_getD_zero_some {ys : List (Option ℚ)} {v : ℚ}
    (h : ys.getD 0 none = some v) :
    (interpSlice ys).getD 0 none = some v := by
  have hlen : 0 < ys.length := by
    cases ys with
    | nil => simp [List.getD] at h
    | cons a l => simp
  rw [interpSlice_getD_of_lt hlen, h]

theorem getD_cons_of_pos {α : Type} (a : α) (l : List α) (d : α) {n : ℕ}
    (h : 0 < n) : (a :: l).getD n d = l.getD (n - 1) d := by
  cases n with
  | zero => omega
  | succ k => simp [List.getD_cons_succ]

theorem interpSlice_fill {v : ℚ} {L m : ℕ} (h2 : m < L) :
    (interpSlice (some v :: List.replicate L none)).getD (m + 1) none = some v := by
  have hlen : m + 1 < (some v :: List.replicate L (none : Option ℚ)).length := by
    simp
    omega
  rw [interpSlice_getD_of_lt hlen]
  have hgd : (some v :: List.replicate L (none : Option ℚ)).getD (m + 1) none = none := by
    rw [List.getD_cons_succ]
    exact getD_replicate_none L m
  rw [hgd]
  have hprev : prevValid (some v :: List.replicate L (none : Option ℚ)) (m + 1)
      = some (0, v) := by
    unfold prevValid
    have hlist : (List.range (m + 1)).map
        (fun j => (j, (some v :: List.replicate L (none : Option ℚ)).getD j none))
        = ((0 : ℕ), some v) :: (List.range m).map (fun j => (j + 1, (none : Option ℚ))) := by
      rw [List.range_succ_eq_map, List.map_cons, List.map_map]
      congr 1
      apply List.map_congr_left
      intro j hj
      simp only [Function.comp]
      rw [List.getD_cons_succ, getD_replicate_none]
    rw [hlist]
    have hcons : (((0 : ℕ), some v) :: (List.range m).map
        (fun j => (j + 1, (none : Option ℚ)))).filterMap
        (fun p => p.2.map (fun w => (p.1, w)))
        = ((0 : ℕ), v) :: ((List.range m).map
            (fun j => (j + 1, (none : Option ℚ)))).filterMap
          (fun p => p.2.map (fun w => (p.1, w))) := by
      rfl
    rw [hcons]
    have htail : ((List.range m).map (fun j => (j + 1, (none : Option ℚ)))).filterMap
        (fun p => p.2.map (fun w => (p.1, w))) = [] := by
      rw [List.filterMap_eq_nil_iff]
      intro p hp
      rcases List.mem_map.mp hp with ⟨j, _, rfl⟩
      rfl
    rw [htail]
    rfl
  have hnext : nextValid (some v :: List.replicate L (none : Option ℚ)) (m + 1)
      = none := by
    unfold nextValid
    have hnil : ((List.range ((some v :: List.replicate L (none : Option ℚ)).length - (m + 1 + 1))).map
        (fun d => (m + 1 + 1 + d, (some v :: List.replicate L (none : Option ℚ)).getD (m + 1 + 1 + d) none))).filterMap
        (fun p => p.2.map (fun w => (p.1, w))) = [] := by
      rw [List.filterMap_eq_nil_iff]
      intro p hp
      rcases List.mem_map.mp hp with ⟨d, _, rfl⟩
      simp only
      rw [getD_cons_of_pos _ _ _ (by omega), getD_of_forall_none
        (fun o ho => List.eq_of_mem_replicate ho)]
      rfl
    rw [hnil]
    rfl
  rw [hprev, hnext]

theorem groupPos_some_head {xs : List (Option ℚ)} {i : ℕ}
    (hlen : i < xs.length) (hx : xs.getD i none = none)
    (hg0 : groupId xs i ≠ 0) :
    ∃ j0 v rest, groupPos xs (groupId xs i) = j0 :: rest ∧
      xs.getD j0 none = some v ∧ j0 < i ∧
      (∀ l ∈ rest, j0 < l ∧ xs.getD l none = none) := by
  have hmem : i ∈ groupPos xs (groupId xs i) := mem_groupPos.mpr ⟨hlen, rfl⟩
  obtain ⟨h0, t, hht⟩ : ∃ h0 t, groupPos xs (groupId xs i) = h0 :: t := by
    cases hgp : groupPos xs (groupId xs i) with
    | nil => rw [hgp] at hmem; cases hmem
    | cons a b => exact ⟨a, b, rfl⟩
  have hpw := pairwise_groupPos xs (groupId xs i)
  rw [hht] at hpw
  have hh0mem : h0 ∈ groupPos xs (groupId xs i) := by
    rw [hht]
    exact List.mem_cons_self _ _
  rcases mem_groupPos.mp hh0mem with ⟨hh0len, hh0g⟩
  cases hxh : xs.getD h0 none with
  | some w =>
    refine ⟨h0, w, t, hht, hxh, ?_, ?_⟩
    · have : i ∈ h0 :: t := by rw [← hht]; exact hmem
      rcases List.mem_cons.mp this with rfl | hit
      · rw [hxh] at hx; cases hx
      · exact List.rel_of_pairwise_cons hpw hit
    · intro l hl
      have hlt : h0 < l := List.rel_of_pairwise_cons hpw hl
      have hlmem : l ∈ groupPos xs (groupId xs i) := by
        rw [hht]
        exact List.mem_cons_of_mem _ hl
      rcases mem_groupPos.mp hlmem with ⟨hllen, hlg⟩
      refine ⟨hlt, ?_⟩
      cases hxl : xs.getD l none with
      | none => rfl
      | some u =>
        have := groupId_lt_of_some hlt hllen hxl
        omega
  | none =>
    exfalso
    cases hh0 : h0 with
    | zero =>
      subst hh0
      have : groupId xs 0 = 0 := by
        rw [groupId_of_none_succ hxh]
        simp
      omega
    | succ k =>
      subst hh0
      have hkg : groupId xs k = groupId xs i := by
        have h1 : groupId xs (k + 1) = (xs.take (k + 1)).countP (fun o => o.isSome) :=
          groupId_of_none_succ hxh
        have h2 : groupId xs k = (xs.take (k + 1)).countP (fun o => o.isSome) := rfl
        omega
      have hkmem : k ∈ groupPos xs (groupId xs i) :=
        mem_groupPos.mpr ⟨by omega, hkg⟩
      rw [hht] at hkmem
      rcases List.mem_cons.mp hkmem with heq | hkt
      · omega
      · have := List.rel_of_pairwise_cons hpw hkt
        omega

theorem length_interpolateShortGaps (xs : List (Option ℚ)) :
    (interpolateShortGaps xs).length = xs.length := by
  simp [interpolateShortGaps]

theorem interpShortGaps_getD {xs : List (Option ℚ)} {i : ℕ} (h : i < xs.length) :
    (interpolateShortGaps xs).getD i none =
      (if 1 ≤ gapLen xs (groupId xs i) ∧ gapLen xs (groupId xs i) ≤ 6 then
        (interpSlice ((groupPos xs (groupId xs i)).map (fun j => xs.getD j none))).getD
          ((groupPos xs (groupId xs i)).indexOf i) none
      else xs.getD i none) := by
  unfold interpolateShortGaps
  rw [getD_map_range, if_pos h]

theorem interpShortGaps_some_pres {xs : List (Option ℚ)} {i : ℕ} {v : ℚ}
    (hlen : i < xs.length) (hsome : xs.getD i none = some v) :
    (interpolateShortGaps xs).getD i none = some v := by
  rw [interpShortGaps_getD hlen]
  split
  case isTrue hcond =>
    have hmem : i ∈ groupPos xs (groupId xs i) := mem_groupPos.mpr ⟨hlen, rfl⟩
    have hmin : ∀ j ∈ groupPos xs (groupId xs i), i ≤ j := by
      intro j hj
      rcases mem_groupPos.mp hj with ⟨hjlen, hjg⟩
      by_contra hc
      have := groupId_lt_of_some (show j < i by omega) hlen hsome
      omega
    obtain ⟨h0, t, hht⟩ : ∃ h0 t, groupPos xs (groupId xs i) = h0 :: t := by
      cases hgp : groupPos xs (groupId xs i) with
      | nil => rw [hgp] at hmem; cases hmem
      | cons a b => exact ⟨a, b, rfl⟩
    have hpw := pairwise_groupPos xs (groupId xs i)
    rw [hht] at hpw
    have hh0 : h0 = i := by
      have h1 : i ≤ h0 := hmin h0 (by rw [hht]; exact List.mem_cons_self _ _)
      have hmem2 : i ∈ h0 :: t := by rw [← hht]; exact hmem
      rcases List.mem_cons.mp hmem2 with rfl | hit
      · rfl
      · have := List.rel_of_pairwise_cons hpw hit
        omega
    subst hh0
    rw [hht, List.indexOf_cons_self, List.map_cons]
    exact interpSlice_getD_zero_some (by rw [List.getD_cons_zero, hsome])
  case isFalse hcond => exact hsome

theorem interpShortGaps_fill_prev {xs : List (Option ℚ)} {i : ℕ}
    (hlen : i < xs.length) (hx : xs.getD i none = none)
    (hshort : gapLen xs (groupId xs i) ≤ 6) (hg0 : groupId xs i ≠ 0) :
    ∃ j0 v, j0 < i ∧ xs.getD j0 none = some v ∧
      (∀ l, j0 < l → l ≤ i → xs.getD l none = none) ∧
      (interpolateShortGaps xs).getD i none = some v := by
  have hmem : i ∈ groupPos xs (groupId xs i) := mem_groupPos.mpr ⟨hlen, rfl⟩
  have hgap1 : 1 ≤ gapLen xs (groupId xs i) := by
    unfold gapLen
    have hmemf : i ∈ (groupPos xs (groupId xs i)).filter
        (fun j => (xs.getD j none).isNone) := by
      rw [List.mem_filter]
      exact ⟨hmem, by rw [hx]; rfl⟩
    have hne := List.ne_nil_of_mem hmemf
    have := List.length_pos.mpr hne
    omega
  obtain ⟨j0, v, rest, hgp, hj0some, hj0i, hrest⟩ := groupPos_some_head hlen hx hg0
  refine ⟨j0, v, hj0i, hj0some, ?_, ?_⟩
  · intro l hl1 hl2
    rcases Nat.lt_or_ge l i with hli | hli
    · have hg1 : groupId xs j0 ≤ groupId xs l := groupId_mono xs (by omega)
      have hg2 : groupId xs l ≤ groupId xs i := groupId_mono xs (by omega)
      have hj0g : groupId xs j0 = groupId xs i := by
        have : j0 ∈ groupPos xs (groupId xs i) := by
          rw [hgp]
          exact List.mem_cons_self _ _
        exact (mem_groupPos.mp this).2
      have hlg : groupId xs l = groupId xs i := by omega
      have hlmem : l ∈ groupPos xs (groupId xs i) :=
        mem_groupPos.mpr ⟨by omega, hlg⟩
      rw [hgp] at hlmem
      rcases List.mem_cons.mp hlmem with rfl | hlt
      · omega
      · exact (hrest l hlt).2
    · have : l = i := by omega
      subst this
      exact hx
  · rw [interpShortGaps_getD hlen, if_pos ⟨hgap1, hshort⟩]
    have hslice : (groupPos xs (groupId xs i)).map (fun j => xs.getD j none)
        = some v :: List.replicate rest.length none := by
      rw [hgp, List.map_cons, hj0some]
      congr 1
      rw [List.eq_replicate_iff]
      refine ⟨by simp, ?_⟩
      intro b hb
      rcases List.mem_map.mp hb with ⟨l, hl, rfl⟩
      exact (hrest l hl).2
    have hirest : i ∈ rest := by
      have hmem2 : i ∈ j0 :: rest := by rw [← hgp]; exact hmem
      rcases List.mem_cons.mp hmem2 with rfl | h
      · rw [hj0some] at hx; cases hx
      · exact h
    have hne : j0 ≠ i := by omega
    have hidx : (groupPos xs (groupId xs i)).indexOf i = (rest.indexOf i) + 1 := by
      rw [hgp, List.indexOf_cons_ne _ hne]
    have hlt : rest.indexOf i < rest.length := List.indexOf_lt_length.mpr hirest
    rw [hslice, hidx, interpSlice_fill hlt]

theorem interpShortGaps_none_iff {xs : List (Option ℚ)} {i : ℕ}
    (hlen : i < xs.length) :
    (interpolateShortGaps xs).getD i none = none ↔
      xs.getD i none = none ∧
        (6 < gapLen xs (groupId xs i) ∨ groupId xs i = 0) := by
  cases hx : xs.getD i none with
  | some v =>
    rw [interpShortGaps_some_pres hlen hx]
    simp
  | none =>
    have hmem : i ∈ groupPos xs (groupId xs i) := mem_groupPos.mpr ⟨hlen, rfl⟩
    have hgap1 : 1 ≤ gapLen xs (groupId xs i) := by
      unfold gapLen
      have hmemf : i ∈ (groupPos xs (groupId xs i)).filter
          (fun j => (xs.getD j none).isNone) := by
        rw [List.mem_filter]
        exact ⟨hmem, by rw [hx]; rfl⟩
      have hne := List.ne_nil_of_mem hmemf
      have := List.length_pos.mpr hne
      omega
    by_cases hbig : 6 < gapLen xs (groupId xs i)
    · rw [interpShortGaps_getD hlen, if_neg (by omega), hx]
      simp [hbig]
    · by_cases hg0 : groupId xs i = 0
      · rw [interpShortGaps_getD hlen, if_pos ⟨hgap1, by omega⟩]
        have hall : ∀ o ∈ (groupPos xs (groupId xs i)).map (fun j => xs.getD j none),
            o = none := by
          intro o ho
          rcases List.mem_map.mp ho with ⟨j, hjmem, rfl⟩
          rcases mem_groupPos.mp hjmem with ⟨hjlen, hjg⟩
          cases hxj : xs.getD j none with
          | none => rfl
          | some w =>
            have := groupId_pos_of_some (le_refl j) hjlen hxj
            omega
        rw [interpSlice_all_none hall]
        simp [hx, hg0]
      · obtain ⟨j0, v, _, _, _, hfill⟩ :=
          interpShortGaps_fill_prev hlen hx (by omega) hg0
        rw [hfill]
        simp [hx, hbig, hg0]

theorem getD_map_of_lt {α β : Type} (f : α → β) {l : List α} {i : ℕ}
    (h : i < l.length) (d : α) (e : β) :
    (l.map f).getD i e = f (l.getD i d) := by
  rw [List.getD_eq_getElem?_getD, List.getElem?_map, List.getElem?_eq_getElem h,
    List.getD_eq_getElem?_getD, List.getElem?_eq_getElem h]
  rfl

theorem hwsg_flag_getD {xs : List (Option ℚ)} {i : ℕ} (hlen : i < xs.length) :
    (handle_wind_speed_gaps xs).2.getD i 0 =
      if (interpolateShortGaps xs).getD i none = none then 1 else 0 := by
  have hleni : i < (interpolateShortGaps xs).length := by
    rw [length_interpolateShortGaps]
    exact hlen
  show ((interpolateShortGaps xs).map (fun v => if v.isSome then (0 : ℕ) else 1)).getD i 0
    = _
  rw [getD_map_of_lt _ hleni none]
  cases hcase : (interpolateShortGaps xs).getD i none <;> simp [hcase]

theorem hwsg_ws_getD {xs : List (Option ℚ)} {i : ℕ} (hlen : i < xs.length) :
    (handle_wind_speed_gaps xs).1.getD i 0 =
      ((interpolateShortGaps xs).getD i none).getD (-1) := by
  have hleni : i < (interpolateShortGaps xs).length := by
    rw [length_interpolateShortGaps]
    exact hlen
  show ((interpolateShortGaps xs).map (fun v => v.getD (-1))).getD i 0 = _
  rw [getD_map_of_lt _ hleni none]

/-- C2 is right about the intent and the code is wrong: on the spec's own
end-to-end scenario [2.0, NaN, NaN, NaN, 3.0] the gap handler outputs
[2, 2, 2, 2, 3] with flags [0, 0, 0, 0, 0] — the three-entry gap is
filled with the left bounding value 2, not with the values 2.25, 2.5,
2.75 of the straight line between the bounds, because the per-gap slice
passed to `interpolate` stops before the right bounding value and pandas
pads trailing NaNs with the last valid value.  The code's own comment
says "Interpolate short gaps linearly", so this is a slip, not a design:
e.g. the first filled value 2 differs from the line value 2 + (3-2)/4. -/
theorem C2_gap_example_eval :
    handle_wind_speed_gaps [some 2, none, none, none, some 3]
      = ([2, 2, 2, 2, 3], [0, 0, 0, 0, 0]) ∧
    (2 : ℚ) ≠ 2 + (3 - 2) * (1 / 4) := by
  exact ⟨by decide, by norm_num⟩

/-- C4 as frozen is false: for the input [2.0, NaN, 3.0] the emitted flag
column is [0, 0, 0] — the interpolated position 1 is flagged 0 — while
the missingness indicator of the original series, which the claim says
the flag equals, is [0, 1, 0]. -/
theorem C4_counterexample :
    (handle_wind_speed_gaps [some 2, none, some 3]).2 = [0, 0, 0] ∧
    ([some (2 : ℚ), none, some 3].map (fun o => if o = none then (1 : ℕ) else 0))
      = [0, 1, 0] ∧
    ([0, 0, 0] : List ℕ) ≠ [0, 1, 0] := by
  exact ⟨by decide, by decide, by decide⟩

/-- C4 (amended): the flag series equals the missingness indicator of the
series after short-gap interpolation and before sentinel filling: it is 1
exactly at the positions of unresolved gaps (original missing value whose
maximal gap segment is longer than the threshold 6 or has no observed
value anywhere before it), and 0 both at originally observed positions
and at interpolated positions. -/
theorem C4_flag_after_interpolation {xs : List (Option ℚ)} {i : ℕ}
    (hlen : i < xs.length) :
    (handle_wind_speed_gaps xs).2.getD i 0 =
      if xs.getD i none = none ∧
          (6 < gapLen xs (groupId xs i) ∨ groupId xs i = 0)
      then 1 else 0 := by
  rw [hwsg_flag_getD hlen]
  by_cases hcase : (interpolateShortGaps xs).getD i none = none
  · rw [if_pos hcase, if_pos ((interpShortGaps_none_iff hlen).mp hcase)]
  · rw [if_neg hcase, if_neg (fun hc => hcase ((interpShortGaps_none_iff hlen).mpr hc))]

/-- Witness instantiating `C4_flag_after_interpolation` on the concrete
input [2.0, NaN, 3.0] at position 1: the gap is short and has an observed
value before it, so the flag is 0 although the original value was
missing. -/
theorem C4_witness :
    1 < ([some (2 : ℚ), none, some 3]).length ∧
    (handle_wind_speed_gaps [some (2 : ℚ), none, some 3]).2.getD 1 0 = 0 := by
  refine ⟨by decide, ?_⟩
  rw [C4_flag_after_interpolation (by decide)]
  decide

/-- C6 as frozen is false: the series [2.0, NaN] ends in a gap of length
1 with no bounding observed value on the right, which the claim says must
be sentinel-filled with -1 and flagged 1; the code instead fills it with
the preceding value 2 and flags it 0 (pandas pads trailing NaNs with the
last valid value). -/
theorem C6_counterexample :
    handle_wind_speed_gaps [some 2, none] = ([2, 2], [0, 0]) ∧
    (([2, 2] : List ℚ), ([0, 0] : List ℕ)) ≠ ([2, -1], [0, 1]) := by
  exact ⟨by decide, by decide⟩

/-- C6 (amended): after the gap handler runs the output series has no
missing values (it is a series of plain rationals); a position holds the
sentinel -1 with flag 1 iff it belongs to an unresolved gap, where a gap
is unresolved iff it is longer than the threshold 6 or lies at the very
start of the series with no observed value before it; a gap of length at
most 6 at the very end of the series is not unresolved: like an interior
short gap it is filled — with the nearest preceding observed value — and
flagged 0; and every position with flag 0 carries the interpolated
(non-missing) value. -/
theorem C6_sentinel_iff_unresolved {xs : List (Option ℚ)} {i : ℕ}
    (hlen : i < xs.length) :
    (((handle_wind_speed_gaps xs).1.getD i 0 = -1 ∧
        (handle_wind_speed_gaps xs).2.getD i 0 = 1) ↔
      (xs.getD i none = none ∧
        (6 < gapLen xs (groupId xs i) ∨ groupId xs i = 0))) ∧
    ((handle_wind_speed_gaps xs).2.getD i 0 = 0 →
      ∃ v, (interpolateShortGaps xs).getD i none = some v ∧
        (handle_wind_speed_gaps xs).1.getD i 0 = v) ∧
    (xs.getD i none = none → gapLen xs (groupId xs i) ≤ 6 →
      groupId xs i ≠ 0 →
      ∃ j0 v, j0 < i ∧ xs.getD j0 none = some v ∧
        (∀ l, j0 < l → l ≤ i → xs.getD l none = none) ∧
        (handle_wind_speed_gaps xs).1.getD i 0 = v ∧
        (handle_wind_speed_gaps xs).2.getD i 0 = 0) := by
  refine ⟨⟨?_, ?_⟩, ?_, ?_⟩
  · rintro ⟨hws, hflag⟩
    apply (interpShortGaps_none_iff hlen).mp
    rw [hwsg_flag_getD hlen] at hflag
    by_contra hc
    rw [if_neg hc] at hflag
    cases hflag
  · intro hc
    have hnone := (interpShortGaps_none_iff hlen).mpr hc
    constructor
    · rw [hwsg_ws_getD hlen, hnone]
      rfl
    · rw [hwsg_flag_getD hlen, if_pos hnone]
  · intro hflag
    rw [hwsg_flag_getD hlen] at hflag
    by_cases hcase : (interpolateShortGaps xs).getD i none = none
    · rw [if_pos hcase] at hflag
      cases hflag
    · cases hv : (interpolateShortGaps xs).getD i none with
      | none => exact absurd hv hcase
      | some v =>
        refine ⟨v, rfl, ?_⟩
        rw [hwsg_ws_getD hlen, hv]
        rfl
  · intro hx hshort hg0
    obtain ⟨j0, v, hj0i, hj0some, hbetween, hfill⟩ :=
      interpShortGaps_fill_prev hlen hx hshort hg0
    refine ⟨j0, v, hj0i, hj0some, hbetween, ?_, ?_⟩
    · rw [hwsg_ws_getD hlen, hfill]
      rfl
    · rw [hwsg_flag_getD hlen, if_neg (by rw [hfill]; exact fun h => by cases h)]

/-- Witness instantiating `C6_sentinel_iff_unresolved` on a series with a
gap of length 7 (> 6) after one observed value: position 1 is
sentinel-filled with -1 and flagged 1. -/
theorem C6_witness :
    1 < ([some (2 : ℚ), none, none, none, none, none, none, none]).length ∧
    ((handle_wind_speed_gaps
        [some (2 : ℚ), none, none, none, none, none, none, none]).1.getD 1 0 = -1 ∧
      (handle_wind_speed_gaps
        [some (2 : ℚ), none, none, none, none, none, none, none]).2.getD 1 0 = 1) := by
  refine ⟨by decide, ?_⟩
  exact (C6_sentinel_iff_unresolved (by decide)).1.mpr (by decide)

/-- C5 as frozen is false: a feature row whose year is 2025 — at or
after the cutoff 2024, so the claim places it in the evaluation subset —
appears in neither subset, because the evaluation filter is
`year == 2024`, not `year >= 2024`. -/
theorem C5_counterexample :
    (splitByYear [mkYearRow 2025]).1 = [] ∧
    (splitByYear [mkYearRow 2025]).2 = [] ∧
    (2024 : ℤ) ≤ (mkYearRow 2025).year := by
  exact ⟨by decide, by decide, by decide⟩

/-- C5 (amended): the split puts a row into the training subset iff its
year is strictly before 2024 and into the evaluation subset iff its year
is exactly 2024 (the cutoff); the subsets are disjoint, and together they
cover exactly the rows with year at most 2024 — rows with year after the
cutoff are silently dropped from both. -/
theorem C5_year_split (fs : List FeatRow) :
    ∀ r ∈ fs,
      (r ∈ (splitByYear fs).1 ↔ r.year < 2024) ∧
      (r ∈ (splitByYear fs).2 ↔ r.year = 2024) ∧
      ¬(r ∈ (splitByYear fs).1 ∧ r ∈ (splitByYear fs).2) ∧
      ((r ∈ (splitByYear fs).1 ∨ r ∈ (splitByYear fs).2) ↔ r.year ≤ 2024) := by
  intro r hr
  have h1 : r ∈ (splitByYear fs).1 ↔ r.year < 2024 := by
    simp [splitByYear, List.mem_filter, hr]
  have h2 : r ∈ (splitByYear fs).2 ↔ r.year = 2024 := by
    simp [splitByYear, List.mem_filter, hr]
  refine ⟨h1, h2, ?_, ?_⟩
  · rintro ⟨ha, hb⟩
    rw [h1] at ha
    rw [h2] at hb
    omega
  · rw [h1, h2]
    omega

/-- Witness instantiating `C5_year_split` on a one-row table with year
2023: the row lands in the training subset. -/
theorem C5_witness : mkYearRow 2023 ∈ (splitByYear [mkYearRow 2023]).1 :=
  ((C5_year_split [mkYearRow 2023] (mkYearRow 2023) (by decide)).1).mpr (by decide)

theorem sget_eq_none_of_all_none {s : Series} (h : ∀ p ∈ s, p.2 = none) (t : ℤ) :
    sget s t = none := by
  unfold sget
  cases hf : s.find? (fun p => p.1 == t) with
  | none => rfl
  | some p => exact h p (List.mem_of_find?_eq_some hf)

theorem sget_roll_std_col_one (g : Series) (f : ℤ) (t : ℤ) :
    sget (roll_std_col g 1 f) t = none := by
  apply sget_eq_none_of_all_none _ t
  intro p hp
  unfold roll_std_col reindexTo at hp
  rcases List.mem_map.mp hp with ⟨s, hs, rfl⟩
  apply sget_eq_none_of_all_none _ s
  intro q hq
  unfold withIndex at hq
  have hsnd := (List.of_mem_zip hq).2
  unfold rollApply at hsnd
  rcases List.mem_map.mp hsnd with ⟨i, hi, hqe⟩
  have hwl : (rollWindow ((shiftF f (sortIndex g)).map (fun p => p.2)) 1 i).length ≤ 1 := by
    simp [rollWindow]
    omega
  have hol : ((rollWindow ((shiftF f (sortIndex g)).map (fun p => p.2)) 1 i).filterMap
      id).length ≤ 1 :=
    le_trans (List.length_filterMap_le _ _) hwl
  rw [← hqe]
  show (if 1 ≤ ((rollWindow ((shiftF f (sortIndex g)).map (fun p => p.2)) 1 i).filterMap
      id).length then varQ _ else none) = none
  split
  · unfold varQ
    rw [if_neg (by omega)]
  · rfl

theorem sget_same_hour_std_col_one (g : Series) (f : ℤ) (t : ℤ) :
    sget (same_hour_std_col g 1 f) t = none := by
  apply sget_eq_none_of_all_none _ t
  intro p hp
  unfold same_hour_std_col at hp
  rcases List.mem_map.mp hp with ⟨q, hq, rfl⟩
  show rowVar ((List.range 1).map
    (fun i => sget (shiftF ((i + 1 : ℕ) * 24 * f) (sortIndex g)) q.1)) = none
  unfold rowVar varQ
  have hle : (((List.range 1).map
      (fun i => sget (shiftF ((i + 1 : ℕ) * 24 * f) (sortIndex g)) q.1)).filterMap
      id).length ≤ 1 := by
    refine le_trans (List.length_filterMap_le _ _) ?_
    simp
  rw [if_neg (by omega)]

/-- C10: a standard deviation over fewer than two values is missing (not
a numeric error — all embedded functions are total): if the rolling
window list or the same-hour window list contains 1, the corresponding
std column is missing on every row of the pre-drop feature table, every
row therefore fails the drop-missing filter, and `add_features` returns
the empty table for every input, in particular for non-empty ones. -/
theorem C10_std_singleton_window (cal : Cal) (cfg : FeatCfg) (df : List Row)
    (h : 1 ∈ cfg.rollingWindows ∨ 1 ∈ cfg.sameHourWindows) :
    (∀ fr ∈ preFeatures cal cfg df,
      (1 ∈ cfg.rollingWindows → none ∈ fr.rollStds) ∧
      (1 ∈ cfg.sameHourWindows → none ∈ fr.shStds) ∧
      keepRow fr = false) ∧
    add_features cal cfg df = [] := by
  have hpre : ∀ fr ∈ preFeatures cal cfg df,
      (1 ∈ cfg.rollingWindows → none ∈ fr.rollStds) ∧
      (1 ∈ cfg.sameHourWindows → none ∈ fr.shStds) ∧
      keepRow fr = false := by
    intro fr hfr
    rcases List.mem_flatMap.mp hfr with ⟨e, he, hfr2⟩
    rcases List.mem_map.mp hfr2 with ⟨r, hr, rfl⟩
    have h1 : 1 ∈ cfg.rollingWindows →
        none ∈ (featRowOf cal cfg (groupRows df e) r).rollStds := by
      intro h1w
      show none ∈ cfg.rollingWindows.map
        (fun w => sget (roll_std_col (toSeries (groupRows df e)) w cfg.freq) r.time)
      exact List.mem_map.mpr ⟨1, h1w, sget_roll_std_col_one _ _ _⟩
    have h2 : 1 ∈ cfg.sameHourWindows →
        none ∈ (featRowOf cal cfg (groupRows df e) r).shStds := by
      intro h2w
      show none ∈ cfg.sameHourWindows.map
        (fun d => sget (same_hour_std_col (toSeries (groupRows df e)) d cfg.freq) r.time)
      exact List.mem_map.mpr ⟨1, h2w, sget_same_hour_std_col_one _ _ _⟩
    refine ⟨h1, h2, ?_⟩
    rcases h with hro | hsh
    · have hall : (featRowOf cal cfg (groupRows df e) r).rollStds.all
          (fun v => v.isSome) = false := by
        rw [List.all_eq_false]
        exact ⟨none, h1 hro, by simp⟩
      simp [keepRow, hall]
    · have hall : (featRowOf cal cfg (groupRows df e) r).shStds.all
          (fun v => v.isSome) = false := by
        rw [List.all_eq_false]
        exact ⟨none, h2 hsh, by simp⟩
      simp [keepRow, hall]
  refine ⟨hpre, ?_⟩
  unfold add_features
  have hfilter : (preFeatures cal cfg df).filter keepRow = [] := by
    rw [List.filter_eq_nil_iff]
    intro fr hfr
    rw [(hpre fr hfr).2.2]
    simp
  rw [hfilter]
  rfl

/-- Witness instantiating `C10_std_singleton_window`: with rolling
windows [1] and a non-empty one-row table, `add_features` returns the
empty table without failing. -/
theorem C10_witness :
    (1 ∈ cfgRollOne.rollingWindows ∨ 1 ∈ cfgRollOne.sameHourWindows) ∧
    dfOne ≠ [] ∧
    add_features calZero cfgRollOne dfOne = [] := by
  refine ⟨by decide, by decide, ?_⟩
  exact (C10_std_singleton_window calZero cfgRollOne dfOne (by decide)).2

theorem eq_singleton_of_nodup_of_all_eq {α : Type} {l : List α} {c : α}
    (hnd : l.Nodup) (hc : c ∈ l) (hall : ∀ x ∈ l, x = c) : l = [c] := by
  cases l with
  | nil => cases hc
  | cons a t =>
    have ha : a = c := hall a (List.mem_cons_self _ _)
    subst ha
    cases t with
    | nil => rfl
    | cons b u =>
      have hb : b = a := hall b (List.mem_cons_of_mem _ (List.mem_cons_self _ _))
      subst hb
      exact absurd (List.mem_cons_self b u) (List.nodup_cons.mp hnd).1

theorem stationCoords_filter_singleton {rides : List Ride}
    (hfun : ∀ r ∈ rides, ∀ q ∈ rides, r.depId = q.depId →
      r.lat = q.lat ∧ r.lon = q.lon ∧ r.cap = q.cap)
    {s : ℕ} (hs : s ∈ rideIds rides) :
    ∃ c, (stationCoords rides).filter (fun q => q.1 == s) = [c] := by
  rcases List.mem_map.mp hs with ⟨r, hr, rfl⟩
  have hcmem : (r.depId, r.lat, r.lon, r.cap) ∈ stationCoords rides := by
    unfold stationCoords
    rw [List.mem_dedup]
    exact List.mem_map.mpr ⟨r, hr, rfl⟩
  have hfmem : (r.depId, r.lat, r.lon, r.cap)
      ∈ (stationCoords rides).filter (fun q => q.1 == r.depId) := by
    rw [List.mem_filter]
    exact ⟨hcmem, by simp⟩
  refine ⟨(r.depId, r.lat, r.lon, r.cap),
    eq_singleton_of_nodup_of_all_eq ((List.nodup_dedup _).filter _) hfmem ?_⟩
  intro x hx
  rw [List.mem_filter] at hx
  obtain ⟨hxc, hxs⟩ := hx
  unfold stationCoords at hxc
  rw [List.mem_dedup] at hxc
  rcases List.mem_map.mp hxc with ⟨q, hq, rfl⟩
  have hid : q.depId = r.depId := by simpa using hxs
  obtain ⟨hl, ho, hc⟩ := hfun q hq r hr hid
  rw [hid, hl, ho, hc]

theorem proj_flatMap_singleton {α : Type} {l : List α} {G : α → List GridRow}
    {f : α → ℕ × ℤ}
    (h : ∀ x ∈ l, ∃ gr, G x = [gr] ∧ (gr.station, gr.time) = f x) :
    (l.flatMap G).map (fun gr => (gr.station, gr.time)) = l.map f := by
  induction l with
  | nil => rfl
  | cons a t ih =>
    obtain ⟨gr, hg, hp⟩ := h a (List.mem_cons_self _ _)
    rw [List.flatMap_cons, List.map_append, hg,
      ih (fun x hx => h x (List.mem_cons_of_mem _ hx)), List.map_cons]
    simp [hp]

theorem topStations_subset_rideIds {rides : List Ride} {n : ℕ} {s : ℕ}
    (hs : s ∈ topStations rides n) : s ∈ rideIds rides := by
  unfold topStations at hs
  have h1 := List.take_subset n _ hs
  have h2 := (List.perm_insertionSort
    (fun a b => (rideIds rides).count b ≤ (rideIds rides).count a)
    ((rideIds rides).dedup)).mem_iff.mp h1
  exact List.mem_dedup.mp h2

theorem nodup_topStations (rides : List Ride) (n : ℕ) :
    (topStations rides n).Nodup := by
  unfold topStations
  refine (List.take_sublist _ _).nodup ?_
  exact ((List.perm_insertionSort
    (fun a b => (rideIds rides).count b ≤ (rideIds rides).count a)
    ((rideIds rides).dedup)).symm).nodup (List.nodup_dedup _)

theorem nodup_seasonHours (cal : Cal) (rides : List Ride) :
    (seasonHours cal rides).Nodup := by
  unfold seasonHours
  cases hmin : (rides.map (fun r => r.time)).min? with
  | none => exact List.Pairwise.nil
  | some lo =>
    cases hmax : (rides.map (fun r => r.time)).max? with
    | none => exact List.Pairwise.nil
    | some hi =>
      refine List.Nodup.filter _ ?_
      refine List.Nodup.map ?_ (List.nodup_range _)
      intro a b hab
      have h2 : lo + (a : ℤ) = lo + (b : ℤ) := hab
      omega

theorem sample_count_eq {rides : List Ride} {top : List ℕ} {k : ℕ × ℤ}
    (hk : k.1 ∈ top) :
    (if k ∈ groupKeys (sampleRides rides top) then
        groupSize (sampleRides rides top) k else 0)
      = (rides.map (fun r => (r.depId, r.time))).count k := by
  by_cases hmem : k ∈ groupKeys (sampleRides rides top)
  · rw [if_pos hmem]
    unfold groupSize sampleRides
    rw [List.count_eq_countP, List.count_eq_countP, List.countP_map,
      List.countP_map, List.countP_filter]
    apply List.countP_congr
    intro r hr
    by_cases hre : (r.depId, r.time) = k
    · have hid : r.depId = k.1 := by rw [← hre]
      have hin : r.depId ∈ top := by rw [hid]; exact hk
      simp [Function.comp, hre, hin]
    · simp [Function.comp, hre]
  · rw [if_neg hmem]
    symm
    rw [List.count_eq_zero]
    intro hc
    rcases List.mem_map.mp hc with ⟨r, hr, hrk⟩
    apply hmem
    unfold groupKeys
    rw [List.mem_dedup]
    refine List.mem_map.mpr ⟨r, ?_, hrk⟩
    unfold sampleRides
    rw [List.mem_filter]
    refine ⟨hr, ?_⟩
    have hid : r.depId = k.1 := by rw [← hrk]
    rw [hid]
    exact List.elem_eq_true_of_mem hk

/-- C7 as frozen is false: two rides of the same top station at the same
hour that carry two different latitude cells make `drop_duplicates` keep
two coordinate rows for that station, and the left merge then duplicates
every grid row of the station: the output has 2 rows although
|entities| x |season timestamps| = 1 x 1 = 1. -/
theorem C7_counterexample :
    (aggregate_hourly_departures calApril ridesDupCoords 1).length = 2 ∧
    (topStations ridesDupCoords 1).length
      * (seasonHours calApril ridesDupCoords).length = 1 := by
  exact ⟨by decide, by decide⟩

/-- C7 (amended).  When the station metadata carried on the rides is
functional — any two rides of the same station agree on lat, lon and
capacity — the dense grid builder's output projects exactly onto the
product of the selected top stations with the season hours: the
(station, time) pairs of the output are precisely that product in order,
they contain no duplicates, the row count is
|top stations| x |season hours|, and each row's departure count is the
number of raw rides of that station at that hour — 0 when no raw
observation exists. -/
theorem C7_dense_grid (cal : Cal) {rides : List Ride} (n : ℕ)
    (hfun : ∀ r ∈ rides, ∀ q ∈ rides, r.depId = q.depId →
      r.lat = q.lat ∧ r.lon = q.lon ∧ r.cap = q.cap) :
    ((aggregate_hourly_departures cal rides n).map (fun gr => (gr.station, gr.time))
        = List.product (topStations rides n) (seasonHours cal rides)) ∧
    ((aggregate_hourly_departures cal rides n).map
        (fun gr => (gr.station, gr.time))).Nodup ∧
    ((aggregate_hourly_departures cal rides n).length
        = (topStations rides n).length * (seasonHours cal rides).length) ∧
    (∀ gr ∈ aggregate_hourly_departures cal rides n,
      gr.departures = (rides.map (fun r => (r.depId, r.time))).count
        (gr.station, gr.time)) := by
  have hsingle : ∀ kc ∈ reindexDepartures (sampleRides rides (topStations rides n))
      (List.product (topStations rides n) (seasonHours cal rides)),
      ∃ gr : GridRow,
        (if ((stationCoords rides).filter (fun q => q.1 == kc.1.1)).isEmpty then
          [(⟨kc.1.1, kc.1.2, kc.2, none, none, none⟩ : GridRow)]
        else ((stationCoords rides).filter (fun q => q.1 == kc.1.1)).map
          (fun q => (⟨kc.1.1, kc.1.2, kc.2, q.2.1, q.2.2.1, q.2.2.2⟩ : GridRow)))
          = [gr] ∧
        gr.station = kc.1.1 ∧ gr.time = kc.1.2 ∧ gr.departures = kc.2 := by
    intro kc hkc
    have hk1 : kc.1 ∈ List.product (topStations rides n) (seasonHours cal rides) := by
      unfold reindexDepartures at hkc
      rcases List.mem_map.mp hkc with ⟨k, hk, rfl⟩
      exact hk
    have hks : kc.1.1 ∈ topStations rides n := (List.mem_product.mp hk1).1
    obtain ⟨c, hc⟩ :=
      stationCoords_filter_singleton hfun (topStations_subset_rideIds hks)
    rw [hc]
    refine ⟨⟨kc.1.1, kc.1.2, kc.2, c.2.1, c.2.2.1, c.2.2.2⟩, ?_, rfl, rfl, rfl⟩
    rw [if_neg (by simp)]
    rfl
  have ha : (aggregate_hourly_departures cal rides n).map
      (fun gr => (gr.station, gr.time))
      = List.product (topStations rides n) (seasonHours cal rides) := by
    unfold aggregate_hourly_departures
    have hstep := proj_flatMap_singleton (f := fun kc : (ℕ × ℤ) × ℕ => kc.1)
      (fun kc hkc => by
        obtain ⟨gr, hg, hs, ht, _⟩ := hsingle kc hkc
        exact ⟨gr, hg, by rw [hs, ht]⟩)
    rw [hstep]
    unfold reindexDepartures
    rw [List.map_map]
    have hfeq : ((fun kc : (ℕ × ℤ) × ℕ => kc.1) ∘ (fun k : ℕ × ℤ =>
        (k, if k ∈ groupKeys (sampleRides rides (topStations rides n)) then
          groupSize (sampleRides rides (topStations rides n)) k else 0)))
        = fun k : ℕ × ℤ => k := rfl
    rw [hfeq, show (fun k : ℕ × ℤ => k) = @id (ℕ × ℤ) from rfl, List.map_id]
  have hlp : (List.product (topStations rides n) (seasonHours cal rides)).length
      = (topStations rides n).length * (seasonHours cal rides).length :=
    List.length_product _ _
  refine ⟨ha, ?_, ?_, ?_⟩
  · rw [ha]
    exact (nodup_topStations rides n).product (nodup_seasonHours cal rides)
  · have hlen := congrArg List.length ha
    rw [List.length_map] at hlen
    rw [hlen]
    exact hlp
  · intro gr hgr
    unfold aggregate_hourly_departures at hgr
    rcases List.mem_flatMap.mp hgr with ⟨kc, hkc, hgrm⟩
    obtain ⟨gr2, hg, hs, ht, hd⟩ := hsingle kc hkc
    have hgr2 : gr = gr2 := by
      rw [hg] at hgrm
      simpa using hgrm
    subst hgr2
    have hk1 : kc.1 ∈ List.product (topStations rides n) (seasonHours cal rides) := by
      unfold reindexDepartures at hkc
      rcases List.mem_map.mp hkc with ⟨k, hk, rfl⟩
      exact hk
    have hkval : kc.2 = (rides.map (fun r => (r.depId, r.time))).count kc.1 := by
      unfold reindexDepartures at hkc
      rcases List.mem_map.mp hkc with ⟨k, hk, heq⟩
      have hk1top : k.1 ∈ topStations rides n := (List.mem_product.mp hk).1
      have hcount : (if k ∈ groupKeys (sampleRides rides (topStations rides n)) then
            groupSize (sampleRides rides (topStations rides n)) k else 0)
          = (rides.map (fun r => (r.depId, r.time))).count k :=
        sample_count_eq hk1top
      rw [← heq]
      exact hcount
    rw [hd, hs, ht, hkval]
  /- the pair (kc.1.1, kc.1.2) is kc.1 by eta -/

/-- Witness instantiating `C7_dense_grid` on a single ride of one
station: the output row count equals |top stations| x |season hours|. -/
theorem C7_witness :
    (aggregate_hourly_departures calApril ridesOne 1).length
      = (topStations ridesOne 1).length * (seasonHours calApril ridesOne).length :=
  (C7_dense_grid calApril 1 (by decide)).2.2.1

end Citybike

